import Mathlib

/-!
Verification of the process-coordination core of `core/sandbox.cpp`
(Telegram Desktop): the 7-bit escape codec, the local-socket command
framing and dispatch of the primary/secondary instance coordinator, and
the nesting-level scheduler for postponed calls.

Strings of 16-bit code units (`QString`) are modelled as `List Nat`
with every element below `2 ^ 16`; byte buffers (`QByteArray`) use the
same representation, which is faithful because the code converts
between the two with Latin-1, an identity on the byte values involved.
The definitions come first, then the theorems.
-/

namespace Sandbox

/-! ## Definitions

### The 7-bit escape codec (`_toHex`, `_fromHex`, `_escapeTo7bit`,
`_escapeFrom7bit`). -/

/-- `_toHex`: low nibble of `v` rendered as a lowercase hex digit. -/
def _toHex (v : Nat) : Nat :=
  if v % 16 ≥ 10 then 97 + (v % 16 - 10) else 48 + v % 16

/-- `_fromHex`: inverse digit lookup; the `'0'` branch subtracts in
machine integers and masks with `0x000F`, modelled on `Int`. -/
def _fromHex (c : Nat) : Nat :=
  if 97 ≤ c then (c - 97 + 10) % 16 else ((((c : Int) - 48) % 16).toNat)

/-- `_escapeTo7bit`: every unit outside printable ASCII `[32,127]` and
the escape character `'%'` (37) itself becomes `'%'` plus four hex
digits, most significant nibble first. -/
def _escapeTo7bit : List Nat → List Nat
  | [] => []
  | c :: rest =>
      if c < 32 ∨ 127 < c ∨ c = 37 then
        37 :: _toHex (c >>> 12) :: _toHex (c >>> 8) :: _toHex (c >>> 4) :: _toHex c ::
          _escapeTo7bit rest
      else
        c :: _escapeTo7bit rest

/-- `_escapeFrom7bit`: a `'%'` is consumed as an escape only when at
least four units follow (`i + 4 < l`); otherwise units pass through. -/
def _escapeFrom7bit : List Nat → List Nat
  | [] => []
  | [c] => [c]
  | [c, a] => [c, a]
  | [c, a, b] => [c, a, b]
  | [c, a, b, d] => [c, a, b, d]
  | c :: a :: b :: d :: e :: rest =>
      if c = 37 then
        ((_fromHex a <<< 12) ||| (_fromHex b <<< 8) ||| (_fromHex d <<< 4) ||| _fromHex e) ::
          _escapeFrom7bit rest
      else
        c :: _escapeFrom7bit (a :: b :: d :: e :: rest)

/-! ### Frame extraction (`Sandbox::readClients`, scanning loop).

The per-session loop appends the read bytes to the session buffer,
repeatedly extracts the next `';'`-terminated frame, and keeps the
unterminated tail as the new buffer. -/

/-- Splits a buffer into its complete `';'`-terminated frames (without
the delimiter) and the unterminated leftover tail. -/
def extractFrames : List Nat → List (List Nat) × List Nat
  | [] => ([], [])
  | c :: rest =>
      if c = 59 then
        ([] :: (extractFrames rest).1, (extractFrames rest).2)
      else
        match extractFrames rest with
        | ([], leftover) => ([], c :: leftover)
        | (f :: fs, leftover) => ((c :: f) :: fs, leftover)

/-! ### Frame dispatch (`Sandbox::readClients`, tag tests, and the
collaborator calls it makes). -/

def cmdTag : List Nat := [67, 77, 68, 58]

def sendTag : List Nat := [83, 69, 78, 68, 58]

def openTag : List Nat := [79, 80, 69, 78, 58]

def showStr : List Nat := [115, 104, 111, 119]

/-- A dispatched command: the recognised tag with its payload (decoded
for `SEND`/`OPEN`), or an unknown frame that is only logged. -/
inductive Command where
  | cmd (payload : List Nat)
  | send (path : List Nat)
  | openUrl (url : List Nat)
  | unknown (frame : List Nat)
deriving DecidableEq, Repr

/-- Tag test and payload extraction for one complete frame, in the
source's test order (`CMD:`, then `SEND:`, then `OPEN:`). -/
def parseFrame (f : List Nat) : Command :=
  if f.take 4 = cmdTag then Command.cmd (f.drop 4)
  else if f.take 5 = sendTag then Command.send (_escapeFrom7bit (f.drop 5))
  else if f.take 5 = openTag then Command.openUrl (_escapeFrom7bit (f.drop 5))
  else Command.unknown f

/-- One read event of a session: append the data to the buffer,
dispatch every complete frame, keep the unterminated tail. -/
def readEvent (buffer data : List Nat) : List Command × List Nat :=
  ((extractFrames (buffer ++ data)).1.map parseFrame, (extractFrames (buffer ++ data)).2)

/-- Feeding several read events to a session starting from an empty
buffer, accumulating the dispatched commands. -/
def feedEvents (pieces : List (List Nat)) : List Command × List Nat :=
  pieces.foldl
    (fun acc piece => (acc.1 ++ (readEvent acc.2 piece).1, (readEvent acc.2 piece).2))
    ([], [])

/-- Decimal digit string of a process id, for `qsl("RES:%1;").arg(pid)`. -/
def natDigits (n : Nat) : List Nat :=
  if n < 10 then [48 + n] else natDigits (n / 10) ++ [48 + n % 10]
decreasing_by exact Nat.div_lt_self (by omega) (by omega)

/-- The `RES:<pid>;` response frame. -/
def resFrame (pid : Nat) : List Nat :=
  [82, 69, 83, 58] ++ natDigits pid ++ [59]

/-- The batch of command frames a connected Secondary writes
(`Sandbox::socketConnected`): one `SEND:` frame per pending path, then
either one `OPEN:` frame (when a start URL is pending) or `CMD:show;`. -/
def socketConnectedCommands (sendPaths : List (List Nat)) (startUrl : List Nat) : List Nat :=
  (sendPaths.map (fun p => sendTag ++ _escapeTo7bit p ++ [59])).flatten ++
    (if startUrl = [] then cmdTag ++ showStr ++ [59]
     else openTag ++ _escapeTo7bit startUrl ++ [59])

/-- External collaborators visible from `readClients`: the process id,
window/application existence and the URL activation policy hook. -/
structure Env where
  pid : Nat
  wndExists : Bool
  preLaunchExists : Bool
  appExists : Bool
  startUrlRequiresActivate : List Nat → Bool

/-- Global settings touched by `readClients`: `cSendPaths`/`cStartUrl`. -/
structure GlobalState where
  sendPaths : List (List Nat)
  startUrl : List Nat
deriving DecidableEq, Repr

/-- Observable calls to the external collaborators. -/
inductive ExtEvent where
  | activateMainWindow
  | activatePreLaunchWindow
  | sendPathsToWindow (paths : List (List Nat))
  | checkStartUrl
deriving DecidableEq, Repr

/-- `Sandbox::execExternal`: only the exact command `show` activates
the main window, or failing that the pre-launch window. -/
def execExternal (env : Env) (cmd : List Nat) : List ExtEvent :=
  if cmd = showStr then
    if env.wndExists then [ExtEvent.activateMainWindow]
    else if env.preLaunchExists then [ExtEvent.activatePreLaunchWindow]
    else []
  else []

/-- State local to one `readClients` call: the accumulated paths and
start URL, plus the observable replies and collaborator calls. -/
structure LoopState where
  toSend : List (List Nat)
  startUrl : List Nat
  replies : List (List Nat)
  events : List ExtEvent
deriving DecidableEq

def initLoop : LoopState :=
  { toSend := [], startUrl := [], replies := [], events := [] }

/-- Dispatch of one complete frame inside the `readClients` loop. -/
def handleFrame (env : Env) (g : GlobalState) (st : LoopState) (f : List Nat) : LoopState :=
  if f.take 4 = cmdTag then
    { st with
        events := st.events ++ execExternal env (f.drop 4),
        replies := st.replies ++ [resFrame env.pid] }
  else if f.take 5 = sendTag then
    if g.sendPaths = [] then
      { st with toSend := st.toSend ++ [_escapeFrom7bit (f.drop 5)] }
    else st
  else if f.take 5 = openTag then
    if g.startUrl = [] then
      { st with
          startUrl := (_escapeFrom7bit (f.drop 5)).take 8192,
          events := st.events ++
            (if env.startUrlRequiresActivate ((_escapeFrom7bit (f.drop 5)).take 8192) then
              execExternal env showStr
            else []),
          replies := st.replies ++
            [resFrame
              (if env.startUrlRequiresActivate ((_escapeFrom7bit (f.drop 5)).take 8192) then
                env.pid
              else 0)] }
    else
      { st with
          events := st.events ++ execExternal env showStr,
          replies := st.replies ++ [resFrame env.pid] }
  else st

/-- One full `readClients` pass for a single session: parse the frames,
dispatch each, then merge the accumulated paths into the global
pending list, hand them to the main window when it exists, store the
start URL and notify the application. Returns the new global state,
the loop observations and the retained buffer tail. -/
def readClientsEvent (env : Env) (g : GlobalState) (buffer data : List Nat) :
    GlobalState × LoopState × List Nat :=
  let parsed := extractFrames (buffer ++ data)
  let st := parsed.1.foldl (handleFrame env g) initLoop
  let g1 := if st.toSend = [] then g else { g with sendPaths := g.sendPaths ++ st.toSend }
  let ev1 := st.events ++
    (if ¬ g1.sendPaths = [] ∧ env.wndExists = true then
      [ExtEvent.sendPathsToWindow g1.sendPaths]
    else [])
  let g2 := if st.startUrl = [] then g1 else { g1 with startUrl := st.startUrl }
  let ev2 := ev1 ++ (if env.appExists = true then [ExtEvent.checkStartUrl] else [])
  (g2, { st with events := ev2 }, parsed.2)

/-! ### The nesting-level scheduler (`Sandbox::postponeCall`,
`incrementEventNestingLevel`, `decrementEventNestingLevel`,
`registerEnterFromEventLoop`, `processPostponedCalls`).

Levels are C++ `int`, modelled as `Int`. The C++ vectors
`_previousLoopNestingLevels` and `_postponedCalls` grow at the back;
the lists here keep the back at the head, so `push_back` is `cons`,
`back()` is the head and `pop_back` is the tail. Callables are inert
identifiers. The contract assertions (`Expects`/`Assert`) and the
`back()` of an empty vector are modelled as `none`. -/

structure SchedState where
  eventNestingLevel : Int
  loopNestingLevel : Int
  previousLoopNestingLevels : List Int
  postponedCalls : List (Int × Nat)
deriving DecidableEq, Repr

def initState : SchedState where
  eventNestingLevel := 0
  loopNestingLevel := 0
  previousLoopNestingLevels := []
  postponedCalls := []

/-- `Sandbox::processPostponedCalls`: run (here: emit) postponed calls
from the back while their recorded level equals `level`. -/
def processPostponedCalls (level : Int) : List (Int × Nat) → List (Int × Nat) × List Nat
  | [] => ([], [])
  | (l, c) :: rest =>
      if l = level then
        ((processPostponedCalls level rest).1, c :: (processPostponedCalls level rest).2)
      else ((l, c) :: rest, [])

/-- The assertion `_postponedCalls.empty() ||
_postponedCalls.back().loopNestingLevel < _loopNestingLevel`. -/
def backLevelBelow (q : List (Int × Nat)) (level : Int) : Bool :=
  match q with
  | [] => true
  | (l, _) :: _ => decide (l < level)

/-- `Sandbox::postponeCall`: `none` models a failed contract assertion
or a `back()` on the empty previous-levels vector. -/
def postponeCall (id : Nat) (s : SchedState) : Option SchedState :=
  if s.loopNestingLevel ≤ s.eventNestingLevel then
    if s.loopNestingLevel = s.eventNestingLevel then
      if backLevelBelow s.postponedCalls s.loopNestingLevel then
        match s.previousLoopNestingLevels with
        | [] => none
        | prev :: rest =>
            some { s with
              loopNestingLevel := prev
              previousLoopNestingLevels := rest
              postponedCalls := (prev, id) :: s.postponedCalls }
      else none
    else
      some { s with postponedCalls := (s.loopNestingLevel, id) :: s.postponedCalls }
  else none

def incrementEventNestingLevel (s : SchedState) : SchedState :=
  { s with eventNestingLevel := s.eventNestingLevel + 1 }

/-- `Sandbox::decrementEventNestingLevel`: pop the previous loop level
when the levels are equal, then run the postponed calls recorded for
the resulting level `_eventNestingLevel - 1`. -/
def decrementEventNestingLevel (s : SchedState) : Option (SchedState × List Nat) :=
  if s.eventNestingLevel = s.loopNestingLevel then
    match s.previousLoopNestingLevels with
    | [] => none
    | prev :: rest =>
        some
          ({ eventNestingLevel := s.eventNestingLevel - 1
             loopNestingLevel := prev
             previousLoopNestingLevels := rest
             postponedCalls :=
               (processPostponedCalls (s.eventNestingLevel - 1) s.postponedCalls).1 },
            (processPostponedCalls (s.eventNestingLevel - 1) s.postponedCalls).2)
  else
    some
      ({ s with
          eventNestingLevel := s.eventNestingLevel - 1
          postponedCalls :=
            (processPostponedCalls (s.eventNestingLevel - 1) s.postponedCalls).1 },
        (processPostponedCalls (s.eventNestingLevel - 1) s.postponedCalls).2)

def registerEnterFromEventLoop (s : SchedState) : SchedState :=
  if s.loopNestingLevel < s.eventNestingLevel then
    { s with
        previousLoopNestingLevels := s.loopNestingLevel :: s.previousLoopNestingLevels
        loopNestingLevel := s.eventNestingLevel }
  else s

/-- The scheduler operations a host can perform. -/
inductive SchedOp where
  | inc
  | reg
  | post (id : Nat)
  | dec
deriving DecidableEq, Repr

/-- One scheduler operation, together with the identifiers of the
postponed calls it runs. -/
def schedStep (s : SchedState) : SchedOp → Option (SchedState × List Nat)
  | SchedOp.inc => some (incrementEventNestingLevel s, [])
  | SchedOp.reg => some (registerEnterFromEventLoop s, [])
  | SchedOp.post id =>
      match postponeCall id s with
      | none => none
      | some s1 => some (s1, [])
  | SchedOp.dec => decrementEventNestingLevel s

/-- Run a sequence of operations, recording the batch of invoked
callables per operation; `none` as soon as one operation fails. -/
def schedRun (s : SchedState) : List SchedOp → Option (SchedState × List (List Nat))
  | [] => some (s, [])
  | op :: ops =>
      match schedStep s op with
      | none => none
      | some p =>
          match schedRun p.1 ops with
          | none => none
          | some q => some (q.1, p.2 :: q.2)

/-- The external precondition of one operation: a decrement only with
a positive event nesting level (it is matched by an increment), a
postponement only under the documented contract `event ≥ loop` and,
additionally, inside at least one event dispatch (`event ≥ 1`). -/
def preOk (s : SchedState) : SchedOp → Bool
  | SchedOp.dec => decide (1 ≤ s.eventNestingLevel)
  | SchedOp.post _ =>
      decide (s.loopNestingLevel ≤ s.eventNestingLevel) &&
        decide (1 ≤ s.eventNestingLevel)
  | _ => true

/-- All operations of a trace meet their external precondition in the
states they actually run in. -/
def preSafeFrom (s : SchedState) : List SchedOp → Bool
  | [] => true
  | op :: ops =>
      preOk s op &&
        match schedStep s op with
        | none => true
        | some p => preSafeFrom p.1 ops

def balanceOp : SchedOp → Int
  | SchedOp.inc => 1
  | SchedOp.dec => -1
  | _ => 0

/-- Net effect of a trace on the event nesting level. -/
def balance (ops : List SchedOp) : Int := (ops.map balanceOp).sum

/-- The identifiers submitted by the `post` operations of a trace. -/
def postIds : List SchedOp → List Nat
  | [] => []
  | SchedOp.post id :: ops => id :: postIds ops
  | _ :: ops => postIds ops

def isDecAt (ops : List SchedOp) (n : Nat) : Prop := ops.get? n = some SchedOp.dec

/-- The event nesting level resulting from operation `n` of the trace
(meaningful when that operation is a decrement). -/
def decResult (e : Int) (ops : List SchedOp) (n : Nat) : Int := e + balance (ops.take (n + 1))

/-- Operation `n` is the first decrement of the trace whose resulting
event nesting level is `r`. -/
def firesFirst (e : Int) (ops : List SchedOp) (r : Int) (n : Nat) : Prop :=
  isDecAt ops n ∧ decResult e ops n = r ∧
    ∀ m, m < n → ¬ (isDecAt ops m ∧ decResult e ops m = r)

/-- Some decrement of the trace results in the event nesting level `r`. -/
def reachesLevel (e : Int) (ops : List SchedOp) (r : Int) : Prop :=
  ∃ n, n < ops.length ∧ isDecAt ops n ∧ decResult e ops n = r

instance (ops : List SchedOp) (n : Nat) : Decidable (isDecAt ops n) := by
  unfold isDecAt
  infer_instance

instance (e : Int) (ops : List SchedOp) (r : Int) (n : Nat) :
    Decidable (firesFirst e ops r n) := by
  unfold firesFirst
  infer_instance

instance (e : Int) (ops : List SchedOp) (r : Int) : Decidable (reachesLevel e ops r) := by
  unfold reachesLevel
  infer_instance

/-- The scheduler state invariant: the loop level never exceeds the
event level; the previous-levels stack strictly decreases from the
back under the current loop level and bottoms out at `0`; postponed
levels are sorted (newest highest), drawn from the level chain, and
strictly below the loop level whenever the two levels are equal. -/
structure Inv (s : SchedState) : Prop where
  loop_le : s.loopNestingLevel ≤ s.eventNestingLevel
  chain : List.Pairwise (fun a b => b < a)
    (s.loopNestingLevel :: s.previousLoopNestingLevels)
  base : (s.loopNestingLevel :: s.previousLoopNestingLevels).getLast? = some 0
  sorted : List.Pairwise (fun p q => q.1 ≤ p.1) s.postponedCalls
  mem_chain : ∀ p ∈ s.postponedCalls,
    p.1 ∈ s.loopNestingLevel :: s.previousLoopNestingLevels
  plateau : s.eventNestingLevel = s.loopNestingLevel →
    ∀ p ∈ s.postponedCalls, p.1 < s.loopNestingLevel

/-- A concrete collaborator environment whose URL policy hook always
requires activation, used by witnesses. -/
def envA : Env where
  pid := 7
  wndExists := true
  preLaunchExists := false
  appExists := true
  startUrlRequiresActivate := fun _ => true

/-- A concrete collaborator environment whose URL policy hook never
requires activation, used by witnesses. -/
def envB : Env where
  pid := 7
  wndExists := false
  preLaunchExists := true
  appExists := false
  startUrlRequiresActivate := fun _ => false

/-! ## Theorems

### Codec: hex digits and the escape round trip. -/

theorem fromHex_toHex (v : Nat) : _fromHex (_toHex v) = v % 16 := by
  unfold _toHex _fromHex
  split
  · have h1 : 97 ≤ 97 + (v % 16 - 10) := by omega
    rw [if_pos h1]
    omega
  · have h2 : ¬ (97 ≤ 48 + v % 16) := by omega
    rw [if_neg h2]
    omega

theorem or_shift (i x y : Nat) (hy : y < 2 ^ i) : (2 ^ i * x) ||| y = 2 ^ i * x + y :=
  (Nat.mul_add_lt_is_or hy x).symm

theorem hexQuad_eq (a b c d : Nat) (hb : b < 16) (hc : c < 16) (hd : d < 16) :
    (a <<< 12) ||| (b <<< 8) ||| (c <<< 4) ||| d = a * 4096 + b * 256 + c * 16 + d := by
  rw [Nat.shiftLeft_eq, Nat.shiftLeft_eq, Nat.shiftLeft_eq]
  have h1 : a * 2 ^ 12 = 2 ^ 12 * a := Nat.mul_comm _ _
  rw [h1, or_shift 12 a (b * 2 ^ 8) (by omega)]
  have h2 : 2 ^ 12 * a + b * 2 ^ 8 = 2 ^ 8 * (2 ^ 4 * a + b) := by ring
  rw [h2, or_shift 8 _ (c * 2 ^ 4) (by omega)]
  have h3 : 2 ^ 8 * (2 ^ 4 * a + b) + c * 2 ^ 4 = 2 ^ 4 * (2 ^ 4 * (2 ^ 4 * a + b) + c) := by
    ring
  rw [h3, or_shift 4 _ d (by omega)]
  ring

theorem toHex_lt (v : Nat) : _toHex v < 128 := by
  unfold _toHex; split <;> omega

theorem toHex_ne_delim (v : Nat) : ¬ _toHex v = 59 := by
  unfold _toHex; split <;> omega

theorem escapeFrom7bit_cons_ne (c : Nat) (hc : ¬ c = 37) (l : List Nat) :
    _escapeFrom7bit (c :: l) = c :: _escapeFrom7bit l := by
  match l with
  | [] => rfl
  | [a] => rfl
  | [a, b] => rfl
  | [a, b, d] => rfl
  | a :: b :: d :: e :: rest => rw [_escapeFrom7bit, if_neg hc]

/-- One escaped unit decodes back: the escape `'%'` plus the four hex
digits of `c` is consumed as one escape sequence. -/
theorem escapeFrom7bit_escape (c : Nat) (h : c < 65536) (l : List Nat) :
    _escapeFrom7bit (37 :: _toHex (c >>> 12) :: _toHex (c >>> 8) :: _toHex (c >>> 4) ::
      _toHex c :: l) = c :: _escapeFrom7bit l := by
  rw [_escapeFrom7bit, if_pos rfl]
  congr 1
  rw [fromHex_toHex, fromHex_toHex, fromHex_toHex, fromHex_toHex]
  rw [hexQuad_eq _ _ _ _ (Nat.mod_lt _ (by norm_num)) (Nat.mod_lt _ (by norm_num))
    (Nat.mod_lt _ (by norm_num))]
  rw [Nat.shiftRight_eq_div_pow, Nat.shiftRight_eq_div_pow, Nat.shiftRight_eq_div_pow]
  omega

theorem escapeFrom_escapeTo (s : List Nat) (h : ∀ c ∈ s, c < 65536) :
    _escapeFrom7bit (_escapeTo7bit s) = s := by
  induction s with
  | nil => rfl
  | cons c rest ih =>
      have hc : c < 65536 := h c (List.mem_cons_self c rest)
      have hrest : ∀ x ∈ rest, x < 65536 := fun x hx => h x (List.mem_cons_of_mem c hx)
      rw [_escapeTo7bit]
      split
      · rw [escapeFrom7bit_escape c hc, ih hrest]
      · rename_i hplain
        push_neg at hplain
        rw [escapeFrom7bit_cons_ne c (by omega), ih hrest]

/-- Escaping introduces no `';'` (59): hex digits and `'%'` are not
`';'`, and a passed-through unit is unchanged. -/
theorem escapeTo7bit_no_delim (s : List Nat) (h : 59 ∉ s) : 59 ∉ _escapeTo7bit s := by
  induction s with
  | nil => simp [_escapeTo7bit]
  | cons c rest ih =>
      have hc : ¬ c = 59 := fun hc => h (hc ▸ List.mem_cons_self c rest)
      have hrest : 59 ∉ rest := fun hm => h (List.mem_cons_of_mem c hm)
      rw [_escapeTo7bit]
      split
      · intro hmem
        simp only [List.mem_cons] at hmem
        rcases hmem with h1 | h1 | h1 | h1 | h1 | h1
        · omega
        · exact toHex_ne_delim _ h1.symm
        · exact toHex_ne_delim _ h1.symm
        · exact toHex_ne_delim _ h1.symm
        · exact toHex_ne_delim _ h1.symm
        · exact ih hrest h1
      · intro hmem
        rcases List.mem_cons.mp hmem with h1 | h1
        · exact hc h1.symm
        · exact ih hrest h1

/-- C2: decoding the 7-bit escape encoding returns the original string,
for every string of 16-bit code units (`_escapeFrom7bit ∘ _escapeTo7bit
= id` on strings whose units are below `2 ^ 16`). -/
theorem escape_unescape_roundtrip (s : List Nat) (h : ∀ c ∈ s, c < 65536) :
    _escapeFrom7bit (_escapeTo7bit s) = s :=
  escapeFrom_escapeTo s h

/-- Witness for C2 at a concrete string holding a control character, a
printable character, the escape character itself, a non-ASCII unit and
the maximal unit. -/
theorem escape_unescape_roundtrip_witness :
    (∀ c ∈ [0, 65, 37, 1000, 65535], c < 65536) ∧
      _escapeFrom7bit (_escapeTo7bit [0, 65, 37, 1000, 65535]) = [0, 65, 37, 1000, 65535] :=
  ⟨by decide, escape_unescape_roundtrip [0, 65, 37, 1000, 65535] (by decide)⟩

/-! ### Frame extraction. -/

theorem extractFrames_no_delim (l : List Nat) (h : 59 ∉ l) : extractFrames l = ([], l) := by
  induction l with
  | nil => rfl
  | cons c rest ih =>
      have hc : ¬ c = 59 := fun hc => h (hc ▸ List.mem_cons_self c rest)
      have hrest : 59 ∉ rest := fun hm => h (List.mem_cons_of_mem c hm)
      rw [extractFrames, if_neg hc, ih hrest]

theorem extractFrames_nil_frames (l : List Nat) (h : (extractFrames l).1 = []) :
    (extractFrames l).2 = l := by
  induction l with
  | nil => rfl
  | cons c rest ih =>
      rw [extractFrames] at h ⊢
      by_cases hc : c = 59
      · rw [if_pos hc] at h
        simp at h
      · rw [if_neg hc] at h ⊢
        rcases hE : extractFrames rest with ⟨A, lo⟩
        rw [hE] at ih h
        cases A with
        | nil =>
            show c :: lo = c :: rest
            have h2 : lo = rest := ih rfl
            rw [h2]
        | cons f fs => simp at h

theorem extractFrames_leftover_no_delim (l : List Nat) : 59 ∉ (extractFrames l).2 := by
  induction l with
  | nil => simp [extractFrames]
  | cons c rest ih =>
      rw [extractFrames]
      by_cases hc : c = 59
      · rw [if_pos hc]
        exact ih
      · rw [if_neg hc]
        rcases hE : extractFrames rest with ⟨A, lo⟩
        rw [hE] at ih
        cases A with
        | nil =>
            show 59 ∉ c :: lo
            intro hmem
            rcases List.mem_cons.mp hmem with h | h
            · exact hc h.symm
            · exact ih h
        | cons f fs => exact ih

/-- Splitting the input across an append boundary: the frames of
`xs ++ ys` are the frames of `xs` followed by the frames of the
leftover of `xs` glued to `ys`. -/
theorem extractFrames_append (xs ys : List Nat) :
    extractFrames (xs ++ ys) =
      ((extractFrames xs).1 ++ (extractFrames ((extractFrames xs).2 ++ ys)).1,
        (extractFrames ((extractFrames xs).2 ++ ys)).2) := by
  induction xs with
  | nil => simp [extractFrames]
  | cons c xs' ih =>
      by_cases hc : c = 59
      · subst hc
        rw [List.cons_append, extractFrames, if_pos rfl, extractFrames, if_pos rfl, ih]
        simp
      · rcases hA : extractFrames xs' with ⟨A, s⟩
        cases A with
        | nil =>
            have hxs' : s = xs' := by
              have h1 := extractFrames_nil_frames xs' (by rw [hA])
              rw [hA] at h1
              exact h1
            have hwhole : extractFrames (c :: xs') = ([], c :: xs') := by
              rw [extractFrames, if_neg hc, hA, hxs']
            rw [hwhole]
            simp
        | cons f fs =>
            have hwhole : extractFrames (c :: xs') = ((c :: f) :: fs, s) := by
              rw [extractFrames, if_neg hc, hA]
            rw [hwhole, List.cons_append, extractFrames, if_neg hc, ih, hA]
            rcases hB : extractFrames (s ++ ys) with ⟨B, t⟩
            simp

/-- A delimiter-free frame followed by `';'` is extracted whole. -/
theorem extractFrames_frame_append (f t : List Nat) (hf : 59 ∉ f) :
    extractFrames ((f ++ [59]) ++ t) = (f :: (extractFrames t).1, (extractFrames t).2) := by
  induction f with
  | nil =>
      show extractFrames (59 :: t) = _
      rw [extractFrames, if_pos rfl]
  | cons c f' ih =>
      have hc : ¬ c = 59 := fun hc => hf (hc ▸ List.mem_cons_self c f')
      have hf' : 59 ∉ f' := fun hm => hf (List.mem_cons_of_mem c hm)
      show extractFrames (c :: ((f' ++ [59]) ++ t)) = _
      rw [extractFrames, if_neg hc, ih hf']

/-- A buffer that is a concatenation of `';'`-terminated
delimiter-free frames is split into exactly those frames. -/
theorem extractFrames_wellformed (fs : List (List Nat)) (h : ∀ f ∈ fs, 59 ∉ f) :
    extractFrames ((fs.map (fun f => f ++ [59])).flatten) = (fs, []) := by
  induction fs with
  | nil => rfl
  | cons f fs' ih =>
      have hf : 59 ∉ f := h f (List.mem_cons_self f fs')
      have hfs' : ∀ x ∈ fs', 59 ∉ x := fun x hx => h x (List.mem_cons_of_mem f hx)
      rw [List.map_cons, List.flatten_cons, extractFrames_frame_append f _ hf, ih hfs']

theorem feedEvents_go (pieces : List (List Nat)) (cs : List Command) (buf : List Nat)
    (hbuf : 59 ∉ buf) :
    pieces.foldl
        (fun acc piece => (acc.1 ++ (readEvent acc.2 piece).1, (readEvent acc.2 piece).2))
        (cs, buf) =
      (cs ++ (readEvent buf pieces.flatten).1, (readEvent buf pieces.flatten).2) := by
  induction pieces generalizing cs buf with
  | nil =>
      simp only [List.foldl_nil, List.flatten_nil, readEvent, List.append_nil]
      rw [extractFrames_no_delim buf hbuf]
      simp
  | cons p ps ih =>
      rw [List.foldl_cons]
      have hstep : (((cs, buf) : List Command × List Nat).1 ++ (readEvent (cs, buf).2 p).1,
            (readEvent (cs, buf).2 p).2) =
          (cs ++ (readEvent buf p).1, (readEvent buf p).2) := rfl
      have hlo : 59 ∉ (readEvent buf p).2 := extractFrames_leftover_no_delim (buf ++ p)
      rw [hstep, ih (cs ++ (readEvent buf p).1) (readEvent buf p).2 hlo]
      simp only [readEvent, List.flatten_cons]
      rw [← List.append_assoc buf p ps.flatten, extractFrames_append (buf ++ p) ps.flatten]
      simp

/-- C4: feeding any byte stream split into arbitrary consecutive
pieces through the per-session parser dispatches the same command
sequence, and retains the same unterminated tail, as feeding the whole
stream in one read event. -/
theorem readClients_fragmentation_invariance (pieces : List (List Nat)) :
    feedEvents pieces = readEvent [] pieces.flatten := by
  rw [feedEvents, feedEvents_go pieces [] [] (by simp)]
  simp

/-! ### The Secondary's command batch (`Sandbox::socketConnected`). -/

/-- A `SEND:` frame carries no `';'` when the path carries none. -/
theorem sendFrame_no_delim (p : List Nat) (hp : 59 ∉ p) :
    59 ∉ sendTag ++ _escapeTo7bit p := by
  intro hm
  rcases List.mem_append.mp hm with h2 | h2
  · revert h2
    decide
  · exact escapeTo7bit_no_delim p hp h2

/-- A single terminated delimiter-free frame extracts to itself. -/
theorem extractFrames_single_frame (f : List Nat) (hf : 59 ∉ f) :
    extractFrames (f ++ [59]) = ([f], []) := by
  have h := extractFrames_frame_append f [] hf
  rwa [List.append_nil] at h

/-- A batch of terminated `SEND:` frames followed by anything splits
into those frames followed by the split of the rest. -/
theorem extractFrames_send_batch (paths : List (List Nat)) (h : ∀ p ∈ paths, 59 ∉ p)
    (tail : List Nat) :
    extractFrames ((paths.map (fun p => sendTag ++ _escapeTo7bit p ++ [59])).flatten ++ tail) =
      (paths.map (fun p => sendTag ++ _escapeTo7bit p) ++ (extractFrames tail).1,
        (extractFrames tail).2) := by
  induction paths with
  | nil => simp
  | cons p ps ih =>
      have hf : 59 ∉ sendTag ++ _escapeTo7bit p :=
        sendFrame_no_delim p (h p (List.mem_cons_self p ps))
      rw [List.map_cons, List.flatten_cons, List.append_assoc,
        extractFrames_frame_append _ _ hf, ih (fun q hq => h q (List.mem_cons_of_mem p hq))]
      simp

/-- C3 counterexample: with one pending path and a pending URL the
written batch still contains a `SEND:` frame before the `OPEN:` frame,
so a supplied URL does not suppress the `SEND` frames. -/
theorem socketConnected_url_keeps_send_frames :
    (extractFrames (socketConnectedCommands [[65]] [66])).1 =
        [[83, 69, 78, 68, 58, 65], [79, 80, 69, 78, 58, 66]] ∧
      (extractFrames (socketConnectedCommands [[65]] [66])).1.map parseFrame =
        [Command.send [65], Command.openUrl [66]] := by
  decide

/-- C3 (amended): the batch written on connect is one `SEND:` frame
per pending path (whether or not a URL is pending), followed by a
single `OPEN:` frame when a URL is pending and by `CMD:show;`
otherwise; the URL replaces only the final `CMD:show;` frame. -/
theorem socketConnected_batch_frames (paths : List (List Nat)) (url : List Nat)
    (hp : ∀ p ∈ paths, 59 ∉ p) (hu : 59 ∉ url) :
    extractFrames (socketConnectedCommands paths url) =
      (paths.map (fun p => sendTag ++ _escapeTo7bit p) ++
          [if url = [] then cmdTag ++ showStr else openTag ++ _escapeTo7bit url],
        []) := by
  rw [socketConnectedCommands]
  by_cases h : url = []
  · rw [if_pos h, if_pos h]
    rw [extractFrames_send_batch paths hp,
      extractFrames_single_frame (cmdTag ++ showStr) (by decide)]
  · rw [if_neg h, if_neg h]
    have hof : 59 ∉ openTag ++ _escapeTo7bit url := by
      intro hm
      rcases List.mem_append.mp hm with h2 | h2
      · revert h2
        decide
      · exact escapeTo7bit_no_delim url hu h2
    rw [extractFrames_send_batch paths hp, extractFrames_single_frame _ hof]

/-- Witness for C3 (amended) with one path and a pending URL. -/
theorem socketConnected_batch_frames_witness :
    (∀ p ∈ [[47, 97]], 59 ∉ p) ∧ 59 ∉ ([116] : List Nat) ∧
      extractFrames (socketConnectedCommands [[47, 97]] [116]) =
        ([[47, 97]].map (fun p => sendTag ++ _escapeTo7bit p) ++
            [if ([116] : List Nat) = [] then cmdTag ++ showStr
             else openTag ++ _escapeTo7bit [116]],
          []) :=
  ⟨by decide, by decide, socketConnected_batch_frames [[47, 97]] [116] (by decide) (by decide)⟩

/-! ### The Primary's frame dispatch. -/

theorem handleFrame_cmd (env : Env) (g : GlobalState) (st : LoopState) (payload : List Nat) :
    handleFrame env g st (cmdTag ++ payload) =
      { st with
          events := st.events ++ execExternal env payload,
          replies := st.replies ++ [resFrame env.pid] } := by
  have h4 : (cmdTag ++ payload).take 4 = cmdTag := rfl
  have hd : (cmdTag ++ payload).drop 4 = payload := rfl
  simp only [handleFrame]
  rw [if_pos h4, hd]

theorem handleFrame_send (env : Env) (g : GlobalState) (st : LoopState) (x : List Nat)
    (hg : g.sendPaths = []) :
    handleFrame env g st (sendTag ++ x) =
      { st with toSend := st.toSend ++ [_escapeFrom7bit x] } := by
  have h4 : (sendTag ++ x).take 4 = [83, 69, 78, 68] := rfl
  have h5 : (sendTag ++ x).take 5 = sendTag := rfl
  have hd : (sendTag ++ x).drop 5 = x := rfl
  simp only [handleFrame]
  rw [if_neg (by rw [h4]; decide), if_pos h5, if_pos hg, hd]

theorem handleFrame_open_fresh (env : Env) (g : GlobalState) (st : LoopState) (x : List Nat)
    (hg : g.startUrl = []) :
    handleFrame env g st (openTag ++ x) =
      { st with
          startUrl := (_escapeFrom7bit x).take 8192,
          events := st.events ++
            (if env.startUrlRequiresActivate ((_escapeFrom7bit x).take 8192) then
              execExternal env showStr
            else []),
          replies := st.replies ++
            [resFrame
              (if env.startUrlRequiresActivate ((_escapeFrom7bit x).take 8192) then env.pid
              else 0)] } := by
  have h4 : (openTag ++ x).take 4 = [79, 80, 69, 78] := rfl
  have h5 : (openTag ++ x).take 5 = openTag := rfl
  have hd : (openTag ++ x).drop 5 = x := rfl
  simp only [handleFrame]
  rw [if_neg (by rw [h4]; decide), if_neg (by rw [h5]; decide), if_pos h5, if_pos hg, hd]

theorem handleFrame_unknown (env : Env) (g : GlobalState) (st : LoopState) (f : List Nat)
    (h1 : ¬ f.take 4 = cmdTag) (h2 : ¬ f.take 5 = sendTag) (h3 : ¬ f.take 5 = openTag) :
    handleFrame env g st f = st := by
  simp only [handleFrame]
  rw [if_neg h1, if_neg h2, if_neg h3]

theorem foldl_handleFrame_sends (env : Env) (g : GlobalState) (hg : g.sendPaths = [])
    (paths : List (List Nat)) (hlt : ∀ p ∈ paths, ∀ c ∈ p, c < 65536) (st : LoopState) :
    (paths.map (fun p => sendTag ++ _escapeTo7bit p)).foldl (handleFrame env g) st =
      { st with toSend := st.toSend ++ paths } := by
  induction paths generalizing st with
  | nil => simp
  | cons p ps ih =>
      rw [List.map_cons, List.foldl_cons, handleFrame_send env g st (_escapeTo7bit p) hg,
        escapeFrom_escapeTo p (hlt p (List.mem_cons_self p ps)),
        ih (fun q hq => hlt q (List.mem_cons_of_mem p hq))]
      simp [List.append_assoc]

/-- C7: a `';'`-terminated frame with none of the known tag prefixes
changes nothing: no reply is written, no collaborator call is made,
and parsing continues with the remaining frames as if the unknown
frame were absent. -/
theorem primary_unknown_frame_ignored (env : Env) (g : GlobalState) (f : List Nat)
    (hcmd : ¬ f.take 4 = cmdTag) (hsend : ¬ f.take 5 = sendTag)
    (hopen : ¬ f.take 5 = openTag) :
    (∀ st, handleFrame env g st f = st) ∧
      ∀ (st : LoopState) (fs1 fs2 : List (List Nat)),
        (fs1 ++ f :: fs2).foldl (handleFrame env g) st =
          (fs1 ++ fs2).foldl (handleFrame env g) st := by
  constructor
  · intro st
    exact handleFrame_unknown env g st f hcmd hsend hopen
  · intro st fs1 fs2
    rw [List.foldl_append, List.foldl_append, List.foldl_cons,
      handleFrame_unknown env g _ f hcmd hsend hopen]

/-- Witness for C7 at the unknown frame `XXX`. -/
theorem primary_unknown_frame_ignored_witness :
    (¬ ([88, 88, 88] : List Nat).take 4 = cmdTag) ∧
      (¬ ([88, 88, 88] : List Nat).take 5 = sendTag) ∧
      (¬ ([88, 88, 88] : List Nat).take 5 = openTag) ∧
      ((∀ st, handleFrame envA ⟨[], []⟩ st [88, 88, 88] = st) ∧
        ∀ (st : LoopState) (fs1 fs2 : List (List Nat)),
          (fs1 ++ [88, 88, 88] :: fs2).foldl (handleFrame envA ⟨[], []⟩) st =
            (fs1 ++ fs2).foldl (handleFrame envA ⟨[], []⟩) st) :=
  ⟨by decide, by decide, by decide,
    primary_unknown_frame_ignored envA ⟨[], []⟩ [88, 88, 88] (by decide) (by decide)
      (by decide)⟩

/-- C5: starting with an empty pending-send-paths list, a batch of
`SEND:` frames followed by `CMD:show;` produces exactly one
`RES:<pid>;` reply, merges exactly the decoded paths, in order, into
the global pending list, and hands them to the main window when it
exists. -/
theorem primary_send_batch_single_reply (env : Env) (u : List Nat) (paths : List (List Nat))
    (h59 : ∀ p ∈ paths, 59 ∉ p) (hlt : ∀ p ∈ paths, ∀ c ∈ p, c < 65536) :
    readClientsEvent env ⟨[], u⟩ []
        ((paths.map (fun p => sendTag ++ _escapeTo7bit p ++ [59])).flatten ++
          (cmdTag ++ showStr ++ [59])) =
      (⟨paths, u⟩,
        { toSend := paths
          startUrl := []
          replies := [resFrame env.pid]
          events := execExternal env showStr ++
            (if ¬ paths = [] ∧ env.wndExists = true then [ExtEvent.sendPathsToWindow paths]
            else []) ++
            (if env.appExists = true then [ExtEvent.checkStartUrl] else []) },
        []) := by
  have hfold : (paths.map (fun p => sendTag ++ _escapeTo7bit p) ++
        [cmdTag ++ showStr]).foldl (handleFrame env ⟨[], u⟩) initLoop =
      { toSend := paths
        startUrl := []
        replies := [resFrame env.pid]
        events := execExternal env showStr } := by
    rw [List.foldl_append, foldl_handleFrame_sends env ⟨[], u⟩ rfl paths hlt,
      List.foldl_cons, List.foldl_nil, handleFrame_cmd]
    simp [initLoop]
  simp only [readClientsEvent, List.nil_append]
  rw [extractFrames_send_batch paths h59,
    extractFrames_single_frame (cmdTag ++ showStr) (by decide)]
  simp only [hfold]
  by_cases hp0 : paths = []
  · subst hp0
    simp
  · simp [hp0]

/-- Witness for C5 with two paths, a main window and an application. -/
theorem primary_send_batch_single_reply_witness :
    (∀ p ∈ [[97], [98]], 59 ∉ p) ∧ (∀ p ∈ [[97], [98]], ∀ c ∈ p, c < 65536) ∧
      readClientsEvent envA ⟨[], []⟩ []
          (([[97], [98]].map (fun p => sendTag ++ _escapeTo7bit p ++ [59])).flatten ++
            (cmdTag ++ showStr ++ [59])) =
        (⟨[[97], [98]], []⟩,
          { toSend := [[97], [98]]
            startUrl := []
            replies := [resFrame envA.pid]
            events := execExternal envA showStr ++
              (if ¬ ([[97], [98]] : List (List Nat)) = [] ∧ envA.wndExists = true then
                [ExtEvent.sendPathsToWindow [[97], [98]]]
              else []) ++
              (if envA.appExists = true then [ExtEvent.checkStartUrl] else []) },
          []) :=
  ⟨by decide, by decide,
    primary_send_batch_single_reply envA [] [[97], [98]] (by decide) (by decide)⟩

/-- C6: an `OPEN:` frame arriving while no start URL is queued stores
the decoded URL truncated to 8192 units as the pending start URL; the
reply is `RES:0;` with no activation when the policy hook denies
activation, and `RES:<pid>;` with the `show` activation path when it
requires it. -/
theorem primary_open_frame_behavior (env : Env) (sp : List (List Nat)) (url : List Nat)
    (hu : 59 ∉ url) (hlt : ∀ c ∈ url, c < 65536) (hne : ¬ url = []) :
    readClientsEvent env ⟨sp, []⟩ [] (openTag ++ _escapeTo7bit url ++ [59]) =
      (⟨sp, url.take 8192⟩,
        { toSend := []
          startUrl := url.take 8192
          replies := [resFrame
            (if env.startUrlRequiresActivate (url.take 8192) then env.pid else 0)]
          events :=
            (if env.startUrlRequiresActivate (url.take 8192) then execExternal env showStr
            else []) ++
            (if ¬ sp = [] ∧ env.wndExists = true then [ExtEvent.sendPathsToWindow sp]
            else []) ++
            (if env.appExists = true then [ExtEvent.checkStartUrl] else []) },
        []) := by
  have hof : 59 ∉ openTag ++ _escapeTo7bit url := by
    intro hm
    rcases List.mem_append.mp hm with h2 | h2
    · revert h2
      decide
    · exact escapeTo7bit_no_delim url hu h2
  have htk : ¬ url.take 8192 = [] := by
    intro h
    rcases List.take_eq_nil_iff.mp h with h2 | h2
    · omega
    · exact hne h2
  simp only [readClientsEvent, List.nil_append]
  rw [extractFrames_single_frame _ hof, List.foldl_cons, List.foldl_nil,
    handleFrame_open_fresh env ⟨sp, []⟩ initLoop (_escapeTo7bit url) rfl,
    escapeFrom_escapeTo url hlt]
  simp [initLoop, htk]

/-- Witness for C6: policy hook denies activation, reply is `RES:0;`
and no activation event is emitted while the URL is stored. -/
theorem primary_open_frame_behavior_witness :
    59 ∉ ([116, 103] : List Nat) ∧ (∀ c ∈ [116, 103], c < 65536) ∧
      ¬ ([116, 103] : List Nat) = [] ∧
      readClientsEvent envB ⟨[], []⟩ [] (openTag ++ _escapeTo7bit [116, 103] ++ [59]) =
        (⟨[], ([116, 103] : List Nat).take 8192⟩,
          { toSend := []
            startUrl := ([116, 103] : List Nat).take 8192
            replies := [resFrame
              (if envB.startUrlRequiresActivate (([116, 103] : List Nat).take 8192) then
                envB.pid
              else 0)]
            events :=
              (if envB.startUrlRequiresActivate (([116, 103] : List Nat).take 8192) then
                execExternal envB showStr
              else []) ++
              (if ¬ ([] : List (List Nat)) = [] ∧ envB.wndExists = true then
                [ExtEvent.sendPathsToWindow []]
              else []) ++
              (if envB.appExists = true then [ExtEvent.checkStartUrl] else []) },
          []) :=
  ⟨by decide, by decide, by decide,
    primary_open_frame_behavior envB [] [116, 103] (by decide) (by decide) (by decide)⟩

/-- C9: every `CMD:` frame, whatever its payload, draws exactly one
`RES:<pid>;` reply; the activation call happens only for the exact
payload `show`, activating the main window when it exists, else the
pre-launch window when it exists, and nothing otherwise. -/
theorem primary_cmd_frame_reply_activation (env : Env) (g : GlobalState) (payload : List Nat)
    (h59 : 59 ∉ payload) :
    (readClientsEvent env g [] (cmdTag ++ payload ++ [59])).2.1.replies =
        [resFrame env.pid] ∧
      (readClientsEvent env g [] (cmdTag ++ payload ++ [59])).2.1.events =
        (if payload = showStr then
            (if env.wndExists = true then [ExtEvent.activateMainWindow]
            else if env.preLaunchExists = true then [ExtEvent.activatePreLaunchWindow]
            else [])
          else []) ++
          (if ¬ g.sendPaths = [] ∧ env.wndExists = true then
            [ExtEvent.sendPathsToWindow g.sendPaths]
          else []) ++
          (if env.appExists = true then [ExtEvent.checkStartUrl] else []) := by
  have hcf : 59 ∉ cmdTag ++ payload := by
    intro hm
    rcases List.mem_append.mp hm with h2 | h2
    · revert h2
      decide
    · exact h59 h2
  simp only [readClientsEvent, List.nil_append]
  rw [extractFrames_single_frame _ hcf, List.foldl_cons, List.foldl_nil, handleFrame_cmd]
  simp [initLoop, execExternal]

/-- Witness for C9 at the payload `show` with a main window present. -/
theorem primary_cmd_frame_reply_activation_witness :
    59 ∉ showStr ∧
      ((readClientsEvent envA ⟨[], []⟩ [] (cmdTag ++ showStr ++ [59])).2.1.replies =
          [resFrame envA.pid] ∧
        (readClientsEvent envA ⟨[], []⟩ [] (cmdTag ++ showStr ++ [59])).2.1.events =
          (if showStr = showStr then
              (if envA.wndExists = true then [ExtEvent.activateMainWindow]
              else if envA.preLaunchExists = true then [ExtEvent.activatePreLaunchWindow]
              else [])
            else []) ++
            (if ¬ ([] : List (List Nat)) = [] ∧ envA.wndExists = true then
              [ExtEvent.sendPathsToWindow []]
            else []) ++
            (if envA.appExists = true then [ExtEvent.checkStartUrl] else [])) :=
  ⟨by decide, primary_cmd_frame_reply_activation envA ⟨[], []⟩ showStr (by decide)⟩

/-! ### Scheduler: the state invariant and its preservation. -/

theorem initState_inv : Inv initState := by
  constructor <;> simp [initState]

theorem pairwise_head_gt {x : Int} {l : List Int}
    (h : List.Pairwise (fun a b => b < a) (x :: l)) : ∀ y ∈ l, y < x :=
  (List.pairwise_cons.mp h).1

theorem inv_entry_le {s : SchedState} (h : Inv s) :
    ∀ p ∈ s.postponedCalls, p.1 ≤ s.loopNestingLevel := by
  intro p hp
  rcases List.mem_cons.mp (h.mem_chain p hp) with h1 | h1
  · exact le_of_eq h1
  · exact le_of_lt (pairwise_head_gt h.chain _ h1)

theorem inv_stack_ne_nil {s : SchedState} (h : Inv s) (hpos : 0 < s.loopNestingLevel) :
    ¬ s.previousLoopNestingLevels = [] := by
  intro hnil
  have hb := h.base
  rw [hnil] at hb
  simp at hb
  omega

theorem processPostponedCalls_spec (level : Int) (q : List (Int × Nat))
    (hsorted : List.Pairwise (fun p r => r.1 ≤ p.1) q)
    (hle : ∀ p ∈ q, p.1 ≤ level) :
    processPostponedCalls level q =
      (q.filter (fun p => ! decide (p.1 = level)),
        (q.filter (fun p => decide (p.1 = level))).map Prod.snd) := by
  induction q with
  | nil => rfl
  | cons a q ih =>
      rcases a with ⟨l, c⟩
      rcases List.pairwise_cons.mp hsorted with ⟨hhead, htail⟩
      rw [processPostponedCalls]
      by_cases hl : l = level
      · rw [if_pos hl, ih htail (fun p hp => hle p (List.mem_cons_of_mem _ hp))]
        subst hl
        simp
      · rw [if_neg hl]
        have hl2 : l ≤ level := hle (l, c) (List.mem_cons_self _ _)
        have hcompl : List.filter (fun p => ! decide (p.1 = level)) ((l, c) :: q) =
            (l, c) :: q := by
          rw [List.filter_eq_self]
          intro p hp
          simp only [Bool.not_eq_true', decide_eq_false_iff_not]
          rcases List.mem_cons.mp hp with h1 | h1
          · rw [h1]
            exact hl
          · have h2 : p.1 ≤ l := hhead p h1
            omega
        have hmatch : List.filter (fun p => decide (p.1 = level)) ((l, c) :: q) = [] := by
          rw [List.filter_eq_nil_iff]
          intro p hp
          simp only [decide_eq_true_eq]
          rcases List.mem_cons.mp hp with h1 | h1
          · rw [h1]
            exact hl
          · have h2 : p.1 ≤ l := hhead p h1
            omega
        rw [hcompl, hmatch]
        rfl

theorem inv_inc {s : SchedState} (h : Inv s) : Inv (incrementEventNestingLevel s) := by
  refine ⟨?_, h.chain, h.base, h.sorted, h.mem_chain, ?_⟩
  · show s.loopNestingLevel ≤ s.eventNestingLevel + 1
    have h1 := h.loop_le
    omega
  · intro he p hp
    have h1 := h.loop_le
    have he2 : s.eventNestingLevel + 1 = s.loopNestingLevel := he
    omega

theorem inv_reg {s : SchedState} (h : Inv s) : Inv (registerEnterFromEventLoop s) := by
  rw [registerEnterFromEventLoop]
  split
  · rename_i hlt
    refine ⟨le_refl _, ?_, ?_, h.sorted, ?_, ?_⟩
    · refine List.pairwise_cons.mpr ⟨?_, h.chain⟩
      intro y hy
      show y < s.eventNestingLevel
      rcases List.mem_cons.mp hy with h1 | h1
      · rw [h1]
        exact hlt
      · have h2 := pairwise_head_gt h.chain y h1
        omega
    · show (s.eventNestingLevel :: s.loopNestingLevel ::
          s.previousLoopNestingLevels).getLast? = some 0
      rw [List.getLast?_cons_cons]
      exact h.base
    · intro p hp
      exact List.mem_cons_of_mem _ (h.mem_chain p hp)
    · intro _ p hp
      show p.1 < s.eventNestingLevel
      have h2 := inv_entry_le h p hp
      omega
  · exact h

theorem postponeCall_some {s s1 : SchedState} {id : Nat}
    (h : Inv s) (hp : postponeCall id s = some s1) :
    Inv s1 ∧ s1.eventNestingLevel = s.eventNestingLevel ∧
      ∃ r, r ≤ s.loopNestingLevel ∧ s1.postponedCalls = (r, id) :: s.postponedCalls := by
  rw [postponeCall] at hp
  by_cases h1 : s.loopNestingLevel ≤ s.eventNestingLevel
  case neg =>
    rw [if_neg h1] at hp
    cases hp
  rw [if_pos h1] at hp
  by_cases h2 : s.loopNestingLevel = s.eventNestingLevel
  · rw [if_pos h2] at hp
    by_cases h3 : backLevelBelow s.postponedCalls s.loopNestingLevel = true
    case neg =>
      rw [if_neg h3] at hp
      cases hp
    rw [if_pos h3] at hp
    cases hstack : s.previousLoopNestingLevels with
    | nil =>
        rw [hstack] at hp
        cases hp
    | cons prev rest =>
        rw [hstack] at hp
        cases hp
        have hchain : List.Pairwise (fun a b => b < a)
            (s.loopNestingLevel :: prev :: rest) := hstack ▸ h.chain
        have hprev : prev < s.loopNestingLevel :=
          pairwise_head_gt hchain prev (List.mem_cons_self _ _)
        have hplat : ∀ p ∈ s.postponedCalls, p.1 < s.loopNestingLevel :=
          h.plateau h2.symm
        have hstk : ∀ p ∈ s.postponedCalls, p.1 ∈ prev :: rest := by
          intro p hpmem
          have hmem := h.mem_chain p hpmem
          rw [hstack] at hmem
          rcases List.mem_cons.mp hmem with hx | hx
          · exact absurd hx (by have := hplat p hpmem; omega)
          · exact hx
        have hle_prev : ∀ p ∈ s.postponedCalls, p.1 ≤ prev := by
          intro p hpmem
          rcases List.mem_cons.mp (hstk p hpmem) with hx | hx
          · exact le_of_eq hx
          · exact le_of_lt
              (pairwise_head_gt (List.pairwise_cons.mp hchain).2 _ hx)
        refine ⟨⟨?_, ?_, ?_, ?_, ?_, ?_⟩, rfl, prev, le_of_lt hprev, rfl⟩
        · show prev ≤ s.eventNestingLevel
          omega
        · exact (List.pairwise_cons.mp hchain).2
        · show (prev :: rest).getLast? = some 0
          have hb := h.base
          rw [hstack, List.getLast?_cons_cons] at hb
          exact hb
        · exact List.pairwise_cons.mpr ⟨hle_prev, h.sorted⟩
        · intro p hpmem
          rcases List.mem_cons.mp hpmem with hx | hx
          · rw [hx]
            exact List.mem_cons_self _ _
          · exact hstk p hx
        · intro he
          have he2 : s.eventNestingLevel = prev := he
          omega
  · rw [if_neg h2] at hp
    cases hp
    have hlt : s.loopNestingLevel < s.eventNestingLevel := lt_of_le_of_ne h1 h2
    refine ⟨⟨h.loop_le, h.chain, h.base, ?_, ?_, ?_⟩, rfl,
      s.loopNestingLevel, le_refl _, rfl⟩
    · exact List.pairwise_cons.mpr ⟨inv_entry_le h, h.sorted⟩
    · intro p hpmem
      rcases List.mem_cons.mp hpmem with hx | hx
      · rw [hx]
        exact List.mem_cons_self _ _
      · exact h.mem_chain p hx
    · intro he
      have he2 : s.eventNestingLevel = s.loopNestingLevel := he
      omega

theorem dec_some {s s1 : SchedState} {fired : List Nat}
    (h : Inv s) (hd : decrementEventNestingLevel s = some (s1, fired)) :
    Inv s1 ∧ s1.eventNestingLevel = s.eventNestingLevel - 1 ∧
      s1.postponedCalls =
        s.postponedCalls.filter (fun p => ! decide (p.1 = s.eventNestingLevel - 1)) ∧
      fired =
        (s.postponedCalls.filter (fun p => decide (p.1 = s.eventNestingLevel - 1))).map
          Prod.snd := by
  rw [decrementEventNestingLevel] at hd
  by_cases heq : s.eventNestingLevel = s.loopNestingLevel
  · rw [if_pos heq] at hd
    cases hstack : s.previousLoopNestingLevels with
    | nil =>
        rw [hstack] at hd
        cases hd
    | cons prev rest =>
        rw [hstack] at hd
        have hchain : List.Pairwise (fun a b => b < a)
            (s.loopNestingLevel :: prev :: rest) := hstack ▸ h.chain
        have hprev : prev < s.loopNestingLevel :=
          pairwise_head_gt hchain prev (List.mem_cons_self _ _)
        have hplat : ∀ p ∈ s.postponedCalls, p.1 < s.loopNestingLevel := h.plateau heq
        have hstk : ∀ p ∈ s.postponedCalls, p.1 ∈ prev :: rest := by
          intro p hpmem
          have hmem := h.mem_chain p hpmem
          rw [hstack] at hmem
          rcases List.mem_cons.mp hmem with hx | hx
          · exact absurd hx (by have := hplat p hpmem; omega)
          · exact hx
        have hle_prev : ∀ p ∈ s.postponedCalls, p.1 ≤ prev := by
          intro p hpmem
          rcases List.mem_cons.mp (hstk p hpmem) with hx | hx
          · exact le_of_eq hx
          · exact le_of_lt
              (pairwise_head_gt (List.pairwise_cons.mp hchain).2 _ hx)
        have hspec := processPostponedCalls_spec (s.eventNestingLevel - 1)
          s.postponedCalls h.sorted
          (fun p hpmem => by have := hplat p hpmem; omega)
        rw [hspec] at hd
        cases hd
        refine ⟨⟨?_, ?_, ?_, ?_, ?_, ?_⟩, rfl, rfl, rfl⟩
        · show prev ≤ s.eventNestingLevel - 1
          omega
        · exact (List.pairwise_cons.mp hchain).2
        · show (prev :: rest).getLast? = some 0
          have hb := h.base
          rw [hstack, List.getLast?_cons_cons] at hb
          exact hb
        · exact h.sorted.filter _
        · intro p hpmem
          rw [List.mem_filter] at hpmem
          exact hstk p hpmem.1
        · intro he p hpmem
          show p.1 < prev
          rw [List.mem_filter] at hpmem
          have hx1 := hle_prev p hpmem.1
          have hx2 := hpmem.2
          simp only [Bool.not_eq_true', decide_eq_false_iff_not] at hx2
          have he2 : s.eventNestingLevel - 1 = prev := he
          omega
  · rw [if_neg heq] at hd
    have hlt : s.loopNestingLevel < s.eventNestingLevel :=
      lt_of_le_of_ne h.loop_le (fun hx => heq hx.symm)
    have hspec := processPostponedCalls_spec (s.eventNestingLevel - 1)
      s.postponedCalls h.sorted
      (fun p hpmem => by have := inv_entry_le h p hpmem; omega)
    rw [hspec] at hd
    cases hd
    refine ⟨⟨?_, h.chain, h.base, ?_, ?_, ?_⟩, rfl, rfl, rfl⟩
    · show s.loopNestingLevel ≤ s.eventNestingLevel - 1
      omega
    · exact h.sorted.filter _
    · intro p hpmem
      rw [List.mem_filter] at hpmem
      exact h.mem_chain p hpmem.1
    · intro he p hpmem
      show p.1 < s.loopNestingLevel
      rw [List.mem_filter] at hpmem
      have hx1 := inv_entry_le h p hpmem.1
      have hx2 := hpmem.2
      simp only [Bool.not_eq_true', decide_eq_false_iff_not] at hx2
      have he2 : s.eventNestingLevel - 1 = s.loopNestingLevel := he
      omega

theorem schedStep_inv {s : SchedState} {op : SchedOp} {p : SchedState × List Nat}
    (h : Inv s) (hs : schedStep s op = some p) : Inv p.1 := by
  cases op with
  | inc =>
      cases hs
      exact inv_inc h
  | reg =>
      cases hs
      exact inv_reg h
  | post id =>
      rw [schedStep] at hs
      cases hpc : postponeCall id s with
      | none =>
          rw [hpc] at hs
          cases hs
      | some s1 =>
          rw [hpc] at hs
          cases hs
          exact (postponeCall_some h hpc).1
  | dec =>
      rcases p with ⟨s1, fired⟩
      exact (dec_some h hs).1

theorem schedStep_e {s : SchedState} {op : SchedOp} {p : SchedState × List Nat}
    (hs : schedStep s op = some p) :
    p.1.eventNestingLevel = s.eventNestingLevel + balanceOp op := by
  cases op with
  | inc =>
      cases hs
      rfl
  | reg =>
      cases hs
      show (registerEnterFromEventLoop s).eventNestingLevel = s.eventNestingLevel + 0
      rw [registerEnterFromEventLoop]
      split <;> simp
  | post id =>
      rw [schedStep] at hs
      cases hpc : postponeCall id s with
      | none =>
          rw [hpc] at hs
          cases hs
      | some s1 =>
          rw [hpc] at hs
          cases hs
          show s1.eventNestingLevel = s.eventNestingLevel + 0
          rw [postponeCall] at hpc
          by_cases h1 : s.loopNestingLevel ≤ s.eventNestingLevel
          case neg =>
            rw [if_neg h1] at hpc
            cases hpc
          rw [if_pos h1] at hpc
          by_cases h2 : s.loopNestingLevel = s.eventNestingLevel
          · rw [if_pos h2] at hpc
            by_cases h3 : backLevelBelow s.postponedCalls s.loopNestingLevel = true
            case neg =>
              rw [if_neg h3] at hpc
              cases hpc
            rw [if_pos h3] at hpc
            cases hstack : s.previousLoopNestingLevels with
            | nil =>
                rw [hstack] at hpc
                cases hpc
            | cons prev rest =>
                rw [hstack] at hpc
                cases hpc
                simp
          · rw [if_neg h2] at hpc
            cases hpc
            simp
  | dec =>
      rw [schedStep, decrementEventNestingLevel] at hs
      by_cases heq : s.eventNestingLevel = s.loopNestingLevel
      · rw [if_pos heq] at hs
        cases hstack : s.previousLoopNestingLevels with
        | nil =>
            rw [hstack] at hs
            cases hs
        | cons prev rest =>
            rw [hstack] at hs
            cases hs
            show s.eventNestingLevel - 1 = s.eventNestingLevel + balanceOp SchedOp.dec
            rw [balanceOp]
            ring
      · rw [if_neg heq] at hs
        cases hs
        show s.eventNestingLevel - 1 = s.eventNestingLevel + balanceOp SchedOp.dec
        rw [balanceOp]
        ring

/-! ### Scheduler: runs, totality under the preconditions, and trace
indexing. -/

theorem schedRun_cons_some {s : SchedState} {op : SchedOp} {ops : List SchedOp}
    {st : SchedState} {logs : List (List Nat)} :
    schedRun s (op :: ops) = some (st, logs) ↔
      ∃ s1 fired logs1, schedStep s op = some (s1, fired) ∧
        schedRun s1 ops = some (st, logs1) ∧ logs = fired :: logs1 := by
  constructor
  · intro h
    rw [schedRun] at h
    cases hstep : schedStep s op with
    | none =>
        rw [hstep] at h
        cases h
    | some p =>
        rw [hstep] at h
        have h2 : (match schedRun p.1 ops with
            | none => none
            | some q => some (q.1, p.2 :: q.2)) = some (st, logs) := h
        cases hrun : schedRun p.1 ops with
        | none =>
            rw [hrun] at h2
            cases h2
        | some q =>
            rw [hrun] at h2
            cases h2
            exact ⟨p.1, p.2, q.2, rfl, hrun, rfl⟩
  · rintro ⟨s1, fired, logs1, hstep, hrun, rfl⟩
    rw [schedRun, hstep]
    show (match schedRun s1 ops with
      | none => none
      | some q => some (q.1, fired :: q.2)) = some (st, fired :: logs1)
    rw [hrun]

theorem schedRun_append_some {s : SchedState} {xs ys : List SchedOp}
    {st : SchedState} {logs : List (List Nat)} :
    schedRun s (xs ++ ys) = some (st, logs) ↔
      ∃ s1 logs1 logs2, schedRun s xs = some (s1, logs1) ∧
        schedRun s1 ys = some (st, logs2) ∧ logs = logs1 ++ logs2 := by
  induction xs generalizing s logs with
  | nil =>
      constructor
      · intro h
        exact ⟨s, [], logs, rfl, h, rfl⟩
      · rintro ⟨s1, logs1, logs2, hx, hy, rfl⟩
        rw [schedRun] at hx
        cases hx
        exact hy
  | cons op xs ih =>
      constructor
      · intro h
        rcases schedRun_cons_some.mp h with ⟨s1, fired, logs1, hstep, hrun, rfl⟩
        rcases ih.mp hrun with ⟨s2, l1, l2, hx, hy, rfl⟩
        exact ⟨s2, fired :: l1, l2,
          schedRun_cons_some.mpr ⟨s1, fired, l1, hstep, hx, rfl⟩, hy, rfl⟩
      · rintro ⟨s2, l1, l2, hx, hy, rfl⟩
        rcases schedRun_cons_some.mp hx with ⟨s1, fired, l1', hstep, hrun, rfl⟩
        exact schedRun_cons_some.mpr
          ⟨s1, fired, l1' ++ l2, hstep, ih.mpr ⟨s2, l1', l2, hrun, hy, rfl⟩, rfl⟩

theorem schedRun_inv {s st : SchedState} {ops : List SchedOp} {logs : List (List Nat)}
    (h : Inv s) (hr : schedRun s ops = some (st, logs)) : Inv st := by
  induction ops generalizing s logs with
  | nil =>
      rw [schedRun] at hr
      cases hr
      exact h
  | cons op ops ih =>
      rcases schedRun_cons_some.mp hr with ⟨s1, fired, logs1, hstep, hrun, rfl⟩
      exact ih (schedStep_inv h hstep) hrun

theorem preSafeFrom_cons {s : SchedState} {op : SchedOp} {ops : List SchedOp}
    (h : preSafeFrom s (op :: ops) = true) :
    preOk s op = true ∧ ∀ p, schedStep s op = some p → preSafeFrom p.1 ops = true := by
  rw [preSafeFrom, Bool.and_eq_true] at h
  refine ⟨h.1, ?_⟩
  intro p hp
  have h2 := h.2
  rw [hp] at h2
  exact h2

theorem backLevelBelow_of_lt {q : List (Int × Nat)} {level : Int}
    (h : ∀ p ∈ q, p.1 < level) : backLevelBelow q level = true := by
  cases q with
  | nil => rfl
  | cons a q =>
      rcases a with ⟨l, c⟩
      show decide (l < level) = true
      simp only [decide_eq_true_eq]
      exact h (l, c) (List.mem_cons_self _ _)

theorem schedStep_total {s : SchedState} {op : SchedOp}
    (h : Inv s) (hok : preOk s op = true) : ∃ p, schedStep s op = some p := by
  cases op with
  | inc => exact ⟨_, rfl⟩
  | reg => exact ⟨_, rfl⟩
  | post id =>
      rw [preOk, Bool.and_eq_true, decide_eq_true_eq, decide_eq_true_eq] at hok
      have hpc : ∃ s1, postponeCall id s = some s1 := by
        rw [postponeCall, if_pos hok.1]
        by_cases h2 : s.loopNestingLevel = s.eventNestingLevel
        · rw [if_pos h2]
          have hb : backLevelBelow s.postponedCalls s.loopNestingLevel = true :=
            backLevelBelow_of_lt (h.plateau h2.symm)
          rw [if_pos hb]
          have hpos : 0 < s.loopNestingLevel := by omega
          cases hstack : s.previousLoopNestingLevels with
          | nil => exact absurd hstack (inv_stack_ne_nil h hpos)
          | cons prev rest => exact ⟨_, rfl⟩
        · rw [if_neg h2]
          exact ⟨_, rfl⟩
      rcases hpc with ⟨s1, hpc⟩
      rw [schedStep, hpc]
      exact ⟨_, rfl⟩
  | dec =>
      rw [preOk, decide_eq_true_eq] at hok
      rw [schedStep, decrementEventNestingLevel]
      by_cases heq : s.eventNestingLevel = s.loopNestingLevel
      · rw [if_pos heq]
        have hpos : 0 < s.loopNestingLevel := by omega
        cases hstack : s.previousLoopNestingLevels with
        | nil => exact absurd hstack (inv_stack_ne_nil h hpos)
        | cons prev rest => exact ⟨_, rfl⟩
      · rw [if_neg heq]
        exact ⟨_, rfl⟩

theorem schedRun_total {s : SchedState} {ops : List SchedOp}
    (h : Inv s) (hpre : preSafeFrom s ops = true) :
    ∃ st logs, schedRun s ops = some (st, logs) := by
  induction ops generalizing s with
  | nil => exact ⟨s, [], rfl⟩
  | cons op ops ih =>
      rcases preSafeFrom_cons hpre with ⟨hok, hrest⟩
      rcases schedStep_total h hok with ⟨p, hstep⟩
      rcases ih (schedStep_inv h hstep) (hrest p hstep) with ⟨st, logs, hrun⟩
      exact ⟨st, p.2 :: logs,
        schedRun_cons_some.mpr ⟨p.1, p.2, logs, by rw [hstep], hrun, rfl⟩⟩

theorem preSafeFrom_append {s : SchedState} {xs ys : List SchedOp}
    (h : preSafeFrom s (xs ++ ys) = true) : preSafeFrom s xs = true := by
  induction xs generalizing s with
  | nil => rfl
  | cons op xs ih =>
      rw [List.cons_append] at h
      rcases preSafeFrom_cons h with ⟨hok, hrest⟩
      rw [preSafeFrom, Bool.and_eq_true]
      refine ⟨hok, ?_⟩
      cases hstep : schedStep s op with
      | none => rfl
      | some p => exact ih (hrest p hstep)

theorem preSafeFrom_append_run {s s1 : SchedState} {xs ys : List SchedOp}
    {logs : List (List Nat)}
    (h : preSafeFrom s (xs ++ ys) = true) (hr : schedRun s xs = some (s1, logs)) :
    preSafeFrom s1 ys = true := by
  induction xs generalizing s logs with
  | nil =>
      rw [schedRun] at hr
      cases hr
      exact h
  | cons op xs ih =>
      rcases schedRun_cons_some.mp hr with ⟨s2, fired, logs1, hstep, hrun, rfl⟩
      rw [List.cons_append] at h
      rcases preSafeFrom_cons h with ⟨hok, hrest⟩
      exact ih (hrest (s2, fired) hstep) hrun

theorem balance_cons (op : SchedOp) (ops : List SchedOp) :
    balance (op :: ops) = balanceOp op + balance ops := by
  simp [balance]

theorem decResult_zero (e : Int) (op : SchedOp) (ops : List SchedOp) :
    decResult e (op :: ops) 0 = e + balanceOp op := by
  simp [decResult, balance]

theorem decResult_succ (e : Int) (op : SchedOp) (ops : List SchedOp) (n : Nat) :
    decResult e (op :: ops) (n + 1) = decResult (e + balanceOp op) ops n := by
  simp only [decResult, List.take_succ_cons, balance_cons]
  ring

theorem isDecAt_zero (op : SchedOp) (ops : List SchedOp) :
    isDecAt (op :: ops) 0 ↔ op = SchedOp.dec := by
  simp [isDecAt]

theorem isDecAt_succ (op : SchedOp) (ops : List SchedOp) (n : Nat) :
    isDecAt (op :: ops) (n + 1) ↔ isDecAt ops n := by
  simp [isDecAt]

theorem firesFirst_zero (e : Int) (op : SchedOp) (ops : List SchedOp) (r : Int) :
    firesFirst e (op :: ops) r 0 ↔ op = SchedOp.dec ∧ e + balanceOp op = r := by
  rw [firesFirst, isDecAt_zero, decResult_zero]
  constructor
  · rintro ⟨h1, h2, _⟩
    exact ⟨h1, h2⟩
  · rintro ⟨h1, h2⟩
    exact ⟨h1, h2, fun m hm => absurd hm (Nat.not_lt_zero m)⟩

theorem firesFirst_succ (e : Int) (op : SchedOp) (ops : List SchedOp) (r : Int) (n : Nat) :
    firesFirst e (op :: ops) r (n + 1) ↔
      ¬ (op = SchedOp.dec ∧ e + balanceOp op = r) ∧
        firesFirst (e + balanceOp op) ops r n := by
  rw [firesFirst, firesFirst, isDecAt_succ, decResult_succ]
  constructor
  · rintro ⟨h1, h2, h3⟩
    refine ⟨?_, h1, h2, ?_⟩
    · have h0 := h3 0 (Nat.succ_pos n)
      rw [isDecAt_zero, decResult_zero] at h0
      exact h0
    · intro m hm
      have hmsucc := h3 (m + 1) (Nat.succ_lt_succ hm)
      rw [isDecAt_succ, decResult_succ] at hmsucc
      exact hmsucc
  · rintro ⟨h0, h1, h2, h3⟩
    refine ⟨h1, h2, ?_⟩
    intro m hm
    cases m with
    | zero =>
        rw [isDecAt_zero, decResult_zero]
        exact h0
    | succ m =>
        rw [isDecAt_succ, decResult_succ]
        exact h3 m (Nat.lt_of_succ_lt_succ hm)

theorem reaches_cons (e : Int) (op : SchedOp) (ops : List SchedOp) (r : Int) :
    reachesLevel e (op :: ops) r ↔
      (op = SchedOp.dec ∧ e + balanceOp op = r) ∨
        reachesLevel (e + balanceOp op) ops r := by
  rw [reachesLevel, reachesLevel]
  constructor
  · rintro ⟨n, hn, h1, h2⟩
    cases n with
    | zero =>
        rw [isDecAt_zero] at h1
        rw [decResult_zero] at h2
        exact Or.inl ⟨h1, h2⟩
    | succ n =>
        rw [isDecAt_succ] at h1
        rw [decResult_succ] at h2
        exact Or.inr ⟨n, Nat.lt_of_succ_lt_succ hn, h1, h2⟩
  · rintro (⟨h1, h2⟩ | ⟨n, hn, h1, h2⟩)
    · exact ⟨0, Nat.succ_pos _, (isDecAt_zero op ops).mpr h1,
        by rw [decResult_zero]; exact h2⟩
    · exact ⟨n + 1, Nat.succ_lt_succ hn, (isDecAt_succ op ops n).mpr h1,
        by rw [decResult_succ]; exact h2⟩

/-! ### Scheduler: the fate of one pending postponed call. -/

theorem postIds_cons_post (id : Nat) (ops : List SchedOp) :
    postIds (SchedOp.post id :: ops) = id :: postIds ops := rfl

theorem reg_queue (s : SchedState) :
    (registerEnterFromEventLoop s).postponedCalls = s.postponedCalls := by
  rw [registerEnterFromEventLoop]
  split <;> rfl

theorem reg_stack_or (s : SchedState) :
    registerEnterFromEventLoop s = s ∨
      (registerEnterFromEventLoop s).eventNestingLevel = s.eventNestingLevel := by
  rw [registerEnterFromEventLoop]
  split
  · exact Or.inr rfl
  · exact Or.inl rfl

theorem mem_map_snd {q : List (Int × Nat)} {c : Nat} :
    c ∈ q.map Prod.snd ↔ ∃ l, (l, c) ∈ q := by
  rw [List.mem_map]
  constructor
  · rintro ⟨⟨l, c'⟩, hmem, rfl⟩
    exact ⟨l, hmem⟩
  · rintro ⟨l, hmem⟩
    exact ⟨(l, c), hmem, rfl⟩

theorem snd_count_one_level_eq {q : List (Int × Nat)} {c : Nat}
    (h : (q.map Prod.snd).count c = 1) :
    ∀ l r : Int, (l, c) ∈ q → (r, c) ∈ q → l = r := by
  induction q with
  | nil =>
      intro l r h1 _
      cases h1
  | cons a q ih =>
      intro l r h1 h2
      rw [List.map_cons, List.count_cons] at h
      rcases List.mem_cons.mp h1 with h1 | h1 <;> rcases List.mem_cons.mp h2 with h2 | h2
      · have h3 : (l, c) = (r, c) := h1.trans h2.symm
        exact congrArg Prod.fst h3
      · exfalso
        have hc : c ∈ q.map Prod.snd := mem_map_snd.mpr ⟨r, h2⟩
        have hpos : 0 < (q.map Prod.snd).count c := List.count_pos_iff.mpr hc
        have hsnd : a.2 == c := by
          rw [← h1]
          exact beq_self_eq_true c
        rw [hsnd, if_pos rfl] at h
        omega
      · exfalso
        have hc : c ∈ q.map Prod.snd := mem_map_snd.mpr ⟨l, h1⟩
        have hpos : 0 < (q.map Prod.snd).count c := List.count_pos_iff.mpr hc
        have hsnd : a.2 == c := by
          rw [← h2]
          exact beq_self_eq_true c
        rw [hsnd, if_pos rfl] at h
        omega
      · refine ih ?_ l r h1 h2
        have hc : c ∈ q.map Prod.snd := mem_map_snd.mpr ⟨l, h1⟩
        have hpos : 0 < (q.map Prod.snd).count c := List.count_pos_iff.mpr hc
        by_cases hsnd : a.2 == c
        · rw [if_pos hsnd] at h
          omega
        · rw [if_neg hsnd] at h
          omega

theorem firesFirst_zero_ne {e r : Int} {op : SchedOp} {ops : List SchedOp}
    (hop : ¬ op = SchedOp.dec) : ¬ firesFirst e (op :: ops) r 0 := by
  rw [firesFirst_zero]
  exact fun hx => hop hx.1

theorem count_if_shift {e r : Int} {c : Nat} {op : SchedOp} {ops : List SchedOp} {n : Nat}
    {b : List Nat} (hop : ¬ (op = SchedOp.dec ∧ e + balanceOp op = r))
    (h : b.count c = if firesFirst (e + balanceOp op) ops r n then 1 else 0) :
    b.count c = if firesFirst e (op :: ops) r (n + 1) then 1 else 0 := by
  rw [h]
  apply if_congr ?_ rfl rfl
  rw [firesFirst_succ]
  constructor
  · intro h2
    exact ⟨hop, h2⟩
  · rintro ⟨_, h2⟩
    exact h2

theorem reaches_shift {e r : Int} {op : SchedOp} {ops : List SchedOp}
    (hop : ¬ (op = SchedOp.dec ∧ e + balanceOp op = r)) :
    reachesLevel e (op :: ops) r ↔ reachesLevel (e + balanceOp op) ops r := by
  rw [reaches_cons]
  constructor
  · rintro (h1 | h)
    · exact absurd h1 hop
    · exact h
  · exact Or.inr

theorem not_posted_not_fired {c : Nat} (ops : List SchedOp) :
    ∀ {s st : SchedState} {logs : List (List Nat)}, Inv s →
    schedRun s ops = some (st, logs) →
    c ∉ s.postponedCalls.map Prod.snd → c ∉ postIds ops →
    (∀ b ∈ logs, c ∉ b) ∧ c ∉ st.postponedCalls.map Prod.snd := by
  induction ops with
  | nil =>
      intro s st logs hInv hrun hq _
      rw [schedRun] at hrun
      cases hrun
      exact ⟨by simp, hq⟩
  | cons op ops ih =>
      intro s st logs hInv hrun hq hp
      rcases schedRun_cons_some.mp hrun with ⟨s1, fired, logs1, hstep, hrun1, rfl⟩
      have hInv1 : Inv s1 := schedStep_inv hInv hstep
      cases op with
      | inc =>
          cases hstep
          obtain ⟨h1, h2⟩ := ih hInv1 hrun1 hq hp
          refine ⟨?_, h2⟩
          intro b hb
          rcases List.mem_cons.mp hb with hb | hb
          · rw [hb]
            simp
          · exact h1 b hb
      | reg =>
          cases hstep
          have hq1 : c ∉ (registerEnterFromEventLoop s).postponedCalls.map Prod.snd := by
            rw [reg_queue]
            exact hq
          obtain ⟨h1, h2⟩ := ih hInv1 hrun1 hq1 hp
          refine ⟨?_, h2⟩
          intro b hb
          rcases List.mem_cons.mp hb with hb | hb
          · rw [hb]
            simp
          · exact h1 b hb
      | post id =>
          rw [schedStep] at hstep
          cases hpc : postponeCall id s with
          | none =>
              rw [hpc] at hstep
              cases hstep
          | some s2 =>
              rw [hpc] at hstep
              cases hstep
              rw [postIds_cons_post] at hp
              have hidne : ¬ id = c := fun hx => hp (hx ▸ List.mem_cons_self _ _)
              have hptl : c ∉ postIds ops := fun hx => hp (List.mem_cons_of_mem _ hx)
              obtain ⟨_, _, r', _, hq2⟩ := postponeCall_some hInv hpc
              have hq1 : c ∉ s1.postponedCalls.map Prod.snd := by
                rw [hq2, List.map_cons]
                intro hx
                rcases List.mem_cons.mp hx with hx | hx
                · exact hidne hx.symm
                · exact hq hx
              obtain ⟨h1, h2⟩ := ih hInv1 hrun1 hq1 hptl
              refine ⟨?_, h2⟩
              intro b hb
              rcases List.mem_cons.mp hb with hb | hb
              · rw [hb]
                simp
              · exact h1 b hb
      | dec =>
          rcases dec_some hInv hstep with ⟨hInv1', _, hq1, hfired⟩
          have hq1' : c ∉ s1.postponedCalls.map Prod.snd := by
            intro hx
            apply hq
            rw [hq1] at hx
            rcases mem_map_snd.mp hx with ⟨l, hl⟩
            rw [List.mem_filter] at hl
            exact mem_map_snd.mpr ⟨l, hl.1⟩
          obtain ⟨h1, h2⟩ := ih hInv1 hrun1 hq1' hp
          refine ⟨?_, h2⟩
          intro b hb
          rcases List.mem_cons.mp hb with hb | hb
          · rw [hb, hfired]
            intro hx
            rcases mem_map_snd.mp hx with ⟨l, hl⟩
            rw [List.mem_filter] at hl
            exact hq (mem_map_snd.mpr ⟨l, hl.1⟩)
          · exact h1 b hb

theorem getD_mem_or_default {α : Type} (l : List α) (n : Nat) (d : α) :
    l.getD n d ∈ l ∨ l.getD n d = d := by
  induction l generalizing n with
  | nil => exact Or.inr rfl
  | cons a l ih =>
      cases n with
      | zero => exact Or.inl (List.mem_cons_self _ _)
      | succ n =>
          rcases ih n with h | h
          · exact Or.inl (List.mem_cons_of_mem _ (by rw [List.getD_cons_succ]; exact h))
          · exact Or.inr (by rw [List.getD_cons_succ]; exact h)

/-- The fate of one pending postponed call `(r, c)` in a successful
run, when `c` appears once in the queue and is never re-submitted: the
batch of operation `n` runs `c` exactly when `n` is the first
decrement whose resulting event level is `r`, and `c` stays queued
exactly when no decrement of the trace results in level `r`. -/
theorem pending_fire_spec {r : Int} {c : Nat} (ops : List SchedOp) :
    ∀ {s st : SchedState} {logs : List (List Nat)}, Inv s →
    (r, c) ∈ s.postponedCalls →
    (s.postponedCalls.map Prod.snd).count c = 1 →
    c ∉ postIds ops →
    schedRun s ops = some (st, logs) →
    (∀ n, (logs.getD n []).count c =
      if firesFirst s.eventNestingLevel ops r n then 1 else 0) ∧
      ((r, c) ∈ st.postponedCalls ↔ ¬ reachesLevel s.eventNestingLevel ops r) := by
  induction ops with
  | nil =>
      intro s st logs hInv hmem hcount hpost hrun
      rw [schedRun] at hrun
      cases hrun
      constructor
      · intro n
        rw [if_neg]
        · simp [List.getD]
        · rintro ⟨hdec, -, -⟩
          rw [isDecAt] at hdec
          simp at hdec
      · constructor
        · intro _ hreach
          rcases hreach with ⟨n, hn, -, -⟩
          simp at hn
        · intro _
          exact hmem
  | cons op ops ih =>
      intro s st logs hInv hmem hcount hpost hrun
      rcases schedRun_cons_some.mp hrun with ⟨s1, fired, logs1, hstep, hrun1, rfl⟩
      have hInv1 : Inv s1 := schedStep_inv hInv hstep
      have he1 : s1.eventNestingLevel = s.eventNestingLevel + balanceOp op :=
        schedStep_e hstep
      cases op with
      | inc =>
          have hop : ¬ (SchedOp.inc = SchedOp.dec ∧
              s.eventNestingLevel + balanceOp SchedOp.inc = r) := by
            rintro ⟨h, -⟩
            exact SchedOp.noConfusion h
          cases hstep
          obtain ⟨hcnt, hiff⟩ := ih hInv1 hmem hcount hpost hrun1
          constructor
          · intro n
            cases n with
            | zero =>
                rw [List.getD_cons_zero, if_neg (firesFirst_zero_ne (by decide))]
                simp
            | succ n =>
                rw [List.getD_cons_succ]
                exact count_if_shift hop (by rw [← he1]; exact hcnt n)
          · rw [reaches_shift hop, ← he1]
            exact hiff
      | reg =>
          have hop : ¬ (SchedOp.reg = SchedOp.dec ∧
              s.eventNestingLevel + balanceOp SchedOp.reg = r) := by
            rintro ⟨h, -⟩
            exact SchedOp.noConfusion h
          cases hstep
          have hmem1 : (r, c) ∈ (registerEnterFromEventLoop s).postponedCalls := by
            rw [reg_queue]
            exact hmem
          have hcount1 :
              ((registerEnterFromEventLoop s).postponedCalls.map Prod.snd).count c = 1 := by
            rw [reg_queue]
            exact hcount
          obtain ⟨hcnt, hiff⟩ := ih hInv1 hmem1 hcount1 hpost hrun1
          constructor
          · intro n
            cases n with
            | zero =>
                rw [List.getD_cons_zero, if_neg (firesFirst_zero_ne (by decide))]
                simp
            | succ n =>
                rw [List.getD_cons_succ]
                exact count_if_shift hop (by rw [← he1]; exact hcnt n)
          · rw [reaches_shift hop, ← he1]
            exact hiff
      | post id =>
          have hop : ¬ (SchedOp.post id = SchedOp.dec ∧
              s.eventNestingLevel + balanceOp (SchedOp.post id) = r) := by
            rintro ⟨h, -⟩
            exact SchedOp.noConfusion h
          rw [schedStep] at hstep
          cases hpc : postponeCall id s with
          | none =>
              rw [hpc] at hstep
              cases hstep
          | some s2 =>
              rw [hpc] at hstep
              cases hstep
              rw [postIds_cons_post] at hpost
              have hidne : ¬ id = c := fun hx => hpost (hx ▸ List.mem_cons_self _ _)
              have hptl : c ∉ postIds ops := fun hx => hpost (List.mem_cons_of_mem _ hx)
              obtain ⟨-, -, r', -, hq2⟩ := postponeCall_some hInv hpc
              have hmem1 : (r, c) ∈ s1.postponedCalls := by
                rw [hq2]
                exact List.mem_cons_of_mem _ hmem
              have hcount1 : (s1.postponedCalls.map Prod.snd).count c = 1 := by
                rw [hq2, List.map_cons, List.count_cons,
                  if_neg (by simp [hidne] : ¬ ((id == c) = true))]
                omega
              obtain ⟨hcnt, hiff⟩ := ih hInv1 hmem1 hcount1 hptl hrun1
              constructor
              · intro n
                cases n with
                | zero =>
                    rw [List.getD_cons_zero,
                      if_neg (firesFirst_zero_ne (fun h => SchedOp.noConfusion h))]
                    simp
                | succ n =>
                    rw [List.getD_cons_succ]
                    exact count_if_shift hop (by rw [← he1]; exact hcnt n)
              · rw [reaches_shift hop, ← he1]
                exact hiff
      | dec =>
          rcases dec_some hInv hstep with ⟨-, -, hq1, hfired⟩
          have hbal : balanceOp SchedOp.dec = -1 := rfl
          by_cases hr : s.eventNestingLevel - 1 = r
          · -- This is the first decrement resulting in level `r`.
            have hmemf : c ∈ fired := by
              rw [hfired]
              apply mem_map_snd.mpr
              refine ⟨r, List.mem_filter.mpr ⟨hmem, ?_⟩⟩
              rw [← hr]
              simp
            have hle : fired.count c ≤ 1 := by
              rw [hfired]
              have hsub : List.Sublist
                  ((List.filter (fun p => decide (p.1 = s.eventNestingLevel - 1))
                    s.postponedCalls).map Prod.snd) (s.postponedCalls.map Prod.snd) :=
                List.Sublist.map Prod.snd (List.filter_sublist _)
              have hc2 := hsub.count_le c
              omega
            have hge : 0 < fired.count c := List.count_pos_iff.mpr hmemf
            have hnotin1 : c ∉ s1.postponedCalls.map Prod.snd := by
              intro hx
              rw [hq1] at hx
              rcases mem_map_snd.mp hx with ⟨l, hl⟩
              rw [List.mem_filter] at hl
              have hlr : l = r := snd_count_one_level_eq hcount l r hl.1 hmem
              have h2 := hl.2
              simp only [Bool.not_eq_true', decide_eq_false_iff_not] at h2
              rw [hlr, ← hr] at h2
              exact h2 rfl
            obtain ⟨hnof, hnofq⟩ := not_posted_not_fired ops hInv1 hrun1 hnotin1 hpost
            constructor
            · intro n
              cases n with
              | zero =>
                  rw [List.getD_cons_zero, if_pos ?_]
                  · omega
                  · rw [firesFirst_zero]
                    exact ⟨rfl, by rw [hbal]; omega⟩
              | succ n =>
                  rw [List.getD_cons_succ]
                  have hzero : c ∉ logs1.getD n [] := by
                    rcases getD_mem_or_default logs1 n [] with h | h
                    · exact hnof _ h
                    · rw [h]
                      simp
                  rw [List.count_eq_zero.mpr hzero, if_neg ?_]
                  intro hf
                  rcases (firesFirst_succ _ _ _ _ _).mp hf with ⟨h0, -⟩
                  exact h0 ⟨rfl, by rw [hbal]; omega⟩
            · have hnotmem : (r, c) ∉ st.postponedCalls := fun hx =>
                hnofq (mem_map_snd.mpr ⟨r, hx⟩)
              have hreach : reachesLevel s.eventNestingLevel (SchedOp.dec :: ops) r := by
                rw [reaches_cons]
                exact Or.inl ⟨rfl, by rw [hbal]; omega⟩
              constructor
              · intro hx
                exact absurd hx hnotmem
              · intro hx
                exact absurd hreach hx
          · -- A decrement for a different level leaves the call queued.
            have hop : ¬ (SchedOp.dec = SchedOp.dec ∧
                s.eventNestingLevel + balanceOp SchedOp.dec = r) := by
              rintro ⟨-, h2⟩
              rw [hbal] at h2
              omega
            have hmem1 : (r, c) ∈ s1.postponedCalls := by
              rw [hq1]
              refine List.mem_filter.mpr ⟨hmem, ?_⟩
              simp only [Bool.not_eq_true', decide_eq_false_iff_not]
              intro hx
              exact hr hx.symm
            have hcount1 : (s1.postponedCalls.map Prod.snd).count c = 1 := by
              have hsub : List.Sublist (s1.postponedCalls.map Prod.snd)
                  (s.postponedCalls.map Prod.snd) := by
                rw [hq1]
                exact List.Sublist.map Prod.snd (List.filter_sublist _)
              have hle := hsub.count_le c
              have hge : 0 < (s1.postponedCalls.map Prod.snd).count c :=
                List.count_pos_iff.mpr (mem_map_snd.mpr ⟨r, hmem1⟩)
              omega
            obtain ⟨hcnt, hiff⟩ := ih hInv1 hmem1 hcount1 hpost hrun1
            constructor
            · intro n
              cases n with
              | zero =>
                  have hnotf : c ∉ fired := by
                    rw [hfired]
                    intro hx
                    rcases mem_map_snd.mp hx with ⟨l, hl⟩
                    rw [List.mem_filter] at hl
                    have hlr : l = r := snd_count_one_level_eq hcount l r hl.1 hmem
                    have h2 := hl.2
                    simp only [decide_eq_true_eq] at h2
                    rw [h2] at hlr
                    exact hr hlr
                  rw [List.getD_cons_zero, List.count_eq_zero.mpr hnotf, if_neg ?_]
                  rw [firesFirst_zero]
                  rintro ⟨-, h2⟩
                  rw [hbal] at h2
                  omega
              | succ n =>
                  rw [List.getD_cons_succ]
                  exact count_if_shift hop (by rw [← he1]; exact hcnt n)
            · rw [reaches_shift hop, ← he1]
              exact hiff

/-- Every batch of invoked callables is, in order, a sublist of the
reversed submission sequence preceding it (prepended with the initial
queue): callables at one level run most-recently-submitted first. -/
theorem run_batch_sublist (ops : List SchedOp) :
    ∀ {s st : SchedState} {logs : List (List Nat)}, Inv s →
    schedRun s ops = some (st, logs) →
    ∀ n, List.Sublist (logs.getD n [])
      ((postIds (ops.take n)).reverse ++ s.postponedCalls.map Prod.snd) := by
  induction ops with
  | nil =>
      intro s st logs hInv hrun n
      rw [schedRun] at hrun
      cases hrun
      simp [List.getD]
  | cons op ops ih =>
      intro s st logs hInv hrun n
      rcases schedRun_cons_some.mp hrun with ⟨s1, fired, logs1, hstep, hrun1, rfl⟩
      have hInv1 : Inv s1 := schedStep_inv hInv hstep
      cases n with
      | zero =>
          rw [List.getD_cons_zero]
          cases op with
          | dec =>
              rcases dec_some hInv hstep with ⟨-, -, -, hfired⟩
              rw [hfired]
              simp only [List.take_zero, postIds, List.reverse_nil, List.nil_append]
              exact List.Sublist.map Prod.snd (List.filter_sublist _)
          | inc =>
              cases hstep
              simp
          | reg =>
              cases hstep
              simp
          | post id =>
              rw [schedStep] at hstep
              cases hpc : postponeCall id s with
              | none =>
                  rw [hpc] at hstep
                  cases hstep
              | some s2 =>
                  rw [hpc] at hstep
                  cases hstep
                  simp
      | succ n =>
          rw [List.getD_cons_succ]
          have hih := ih hInv1 hrun1 n
          cases op with
          | inc =>
              cases hstep
              exact hih
          | reg =>
              cases hstep
              rw [reg_queue] at hih
              exact hih
          | post id =>
              rw [schedStep] at hstep
              cases hpc : postponeCall id s with
              | none =>
                  rw [hpc] at hstep
                  cases hstep
              | some s2 =>
                  rw [hpc] at hstep
                  cases hstep
                  obtain ⟨-, -, r', -, hq2⟩ := postponeCall_some hInv hpc
                  rw [hq2, List.map_cons] at hih
                  show List.Sublist (logs1.getD n [])
                    ((id :: postIds (ops.take n)).reverse ++ s.postponedCalls.map Prod.snd)
                  rw [List.reverse_cons, List.append_assoc, List.singleton_append]
                  exact hih
          | dec =>
              rcases dec_some hInv hstep with ⟨-, -, hq1, -⟩
              rw [hq1] at hih
              refine hih.trans ?_
              exact List.Sublist.append_left
                (List.Sublist.map Prod.snd (List.filter_sublist _)) _

/-! ### C10, C1 and C8. -/

/-- C10 counterexample: `postponeCall` at the initial state satisfies
the claim's precondition (event level `0 ≥ 0` loop level), takes the
reconciliation branch (the two levels are equal and the queue-level
assertion passes), and there accesses the back of an empty
previous-loop-levels stack: the modelled call aborts (`none`). -/
theorem postpone_initial_empty_stack_access :
    initState.loopNestingLevel = initState.eventNestingLevel ∧
      initState.previousLoopNestingLevels = [] ∧
      backLevelBelow initState.postponedCalls initState.loopNestingLevel = true ∧
      postponeCall 0 initState = none := by
  decide

/-- C10 (amended): when every decrement is matched by a previous
increment and every `postponeCall` runs with `event ≥ loop` and inside
at least one dispatch (`event ≥ 1`), the whole run succeeds (so every
`back()` access is on a non-empty stack), and in every reachable state
the stored previous levels are strictly decreasing below the current
loop level, which is positive — hence the stack is non-empty —
whenever a pop is about to happen. -/
theorem nesting_stack_access_safety (ops : List SchedOp)
    (hpre : preSafeFrom initState ops = true) :
    (∃ st logs, schedRun initState ops = some (st, logs)) ∧
      ∀ xs ys, ops = xs ++ ys →
        ∃ s logs, schedRun initState xs = some (s, logs) ∧
          List.Pairwise (fun a b => b < a)
            (s.loopNestingLevel :: s.previousLoopNestingLevels) ∧
          (s.eventNestingLevel = s.loopNestingLevel → 1 ≤ s.eventNestingLevel →
            ¬ s.previousLoopNestingLevels = []) := by
  refine ⟨schedRun_total initState_inv hpre, ?_⟩
  rintro xs ys rfl
  have hprex : preSafeFrom initState xs = true := preSafeFrom_append hpre
  rcases schedRun_total initState_inv hprex with ⟨s, logs, hrun⟩
  have hInv : Inv s := schedRun_inv initState_inv hrun
  refine ⟨s, logs, hrun, hInv.chain, ?_⟩
  intro heq hpos
  exact inv_stack_ne_nil hInv (by omega)

/-- Witness for C10 (amended) on a trace that enters a nested loop,
postpones and unwinds twice. -/
theorem nesting_stack_access_safety_witness :
    preSafeFrom initState
        [SchedOp.inc, SchedOp.reg, SchedOp.inc, SchedOp.post 1, SchedOp.dec,
          SchedOp.dec] = true ∧
      ((∃ st logs, schedRun initState
          [SchedOp.inc, SchedOp.reg, SchedOp.inc, SchedOp.post 1, SchedOp.dec,
            SchedOp.dec] = some (st, logs)) ∧
        ∀ xs ys,
          [SchedOp.inc, SchedOp.reg, SchedOp.inc, SchedOp.post 1, SchedOp.dec,
            SchedOp.dec] = xs ++ ys →
          ∃ s logs, schedRun initState xs = some (s, logs) ∧
            List.Pairwise (fun a b => b < a)
              (s.loopNestingLevel :: s.previousLoopNestingLevels) ∧
            (s.eventNestingLevel = s.loopNestingLevel → 1 ≤ s.eventNestingLevel →
              ¬ s.previousLoopNestingLevels = [])) :=
  ⟨by decide, nesting_stack_access_safety _ (by decide)⟩

theorem firesFirst_reaches {e r : Int} {ops : List SchedOp} {n : Nat}
    (h : firesFirst e ops r n) : reachesLevel e ops r := by
  rcases h with ⟨h1, h2, -⟩
  refine ⟨n, ?_, h1, h2⟩
  rw [isDecAt] at h1
  rcases List.get?_eq_some.mp h1 with ⟨hlt, -⟩
  exact hlt

theorem getD_of_get? {α : Type} {l : List α} {n : Nat} {b : α}
    (h : l.get? n = some b) (d : α) : l.getD n d = b := by
  induction l generalizing n with
  | nil => cases h
  | cons a l ih =>
      cases n with
      | zero =>
          cases h
          rfl
      | succ n =>
          rw [List.getD_cons_succ]
          exact ih (by simpa using h)

/-- C1 counterexample: the trace `post 0, inc, dec` satisfies the
claim's stated precondition `event ≥ loop` at its one `postponeCall`
(`0 ≥ 0`) and its decrement is matched, yet the run aborts inside
`postponeCall` (empty-stack `back()` behind the contract assertion),
so callable `0` is never invoked, not invoked exactly once. -/
theorem postpone_at_top_level_aborts :
    initState.loopNestingLevel ≤ initState.eventNestingLevel ∧
      schedRun initState [SchedOp.post 0, SchedOp.inc, SchedOp.dec] = none := by
  decide

/-- C1 (amended): under the documented contract strengthened with
`event ≥ 1` at each `postponeCall`, every trace around a submission of
`c` runs to completion; the recorded level `r` of `c` is the head of
the queue after submission; the batch of a later operation `n` runs
`c` exactly when `n` is the first decrement whose resulting event
level is `r` (so `c` runs exactly once when such a decrement exists);
`c` stays queued exactly when no such decrement occurs; and every
batch lists its callables in reverse submission order. -/
theorem postponed_calls_fire_once_at_first_unwind (xs ys : List SchedOp) (c : Nat)
    (hpre : preSafeFrom initState (xs ++ SchedOp.post c :: ys) = true)
    (hxs : c ∉ postIds xs) (hys : c ∉ postIds ys) :
    ∃ s0 logs0 s1 st logs r,
      schedRun initState xs = some (s0, logs0) ∧
      postponeCall c s0 = some s1 ∧
      schedRun s1 ys = some (st, logs) ∧
      s1.postponedCalls.head? = some (r, c) ∧
      (∀ n, (logs.getD n []).count c =
        if firesFirst s1.eventNestingLevel ys r n then 1 else 0) ∧
      ((r, c) ∈ st.postponedCalls ↔ ¬ reachesLevel s1.eventNestingLevel ys r) ∧
      (∀ fullSt fullLogs,
        schedRun initState (xs ++ SchedOp.post c :: ys) = some (fullSt, fullLogs) →
        ∀ n, List.Sublist (fullLogs.getD n [])
          ((postIds ((xs ++ SchedOp.post c :: ys).take n)).reverse)) := by
  rcases schedRun_total initState_inv hpre with ⟨stF, logsF, hrunF⟩
  rcases schedRun_append_some.mp hrunF with ⟨s0, logs0, logs2, hrun0, hrun2, -⟩
  have hInv0 : Inv s0 := schedRun_inv initState_inv hrun0
  rcases schedRun_cons_some.mp hrun2 with ⟨s1, fired, logs1, hstep, hrun1, -⟩
  rw [schedStep] at hstep
  cases hpc : postponeCall c s0 with
  | none =>
      rw [hpc] at hstep
      cases hstep
  | some s2 =>
      rw [hpc] at hstep
      cases hstep
      obtain ⟨hInv1, he1, r, hrle, hq1⟩ := postponeCall_some hInv0 hpc
      have hnotin : c ∉ s0.postponedCalls.map Prod.snd :=
        (not_posted_not_fired xs initState_inv hrun0 (by simp [initState]) hxs).2
      have hmem1 : (r, c) ∈ s1.postponedCalls := by
        rw [hq1]
        exact List.mem_cons_self _ _
      have hcount1 : (s1.postponedCalls.map Prod.snd).count c = 1 := by
        rw [hq1, List.map_cons, List.count_cons_self, List.count_eq_zero.mpr hnotin]
      obtain ⟨hcnt, hiff⟩ := pending_fire_spec ys hInv1 hmem1 hcount1 hys hrun1
      refine ⟨s0, logs0, s1, stF, logs1, r, hrun0, hpc, hrun1,
        by rw [hq1]; rfl, hcnt, hiff, ?_⟩
      intro fullSt fullLogs hrunF' n
      have hsub := run_batch_sublist _ initState_inv hrunF' n
      simpa [initState] using hsub

/-- Witness for C1 (amended): enter a nested loop, postpone `5` at
loop level 1 from event level 2, then unwind twice. -/
theorem postponed_calls_fire_once_at_first_unwind_witness :
    preSafeFrom initState
        ([SchedOp.inc, SchedOp.reg, SchedOp.inc] ++
          SchedOp.post 5 :: [SchedOp.dec, SchedOp.dec]) = true ∧
      5 ∉ postIds [SchedOp.inc, SchedOp.reg, SchedOp.inc] ∧
      5 ∉ postIds [SchedOp.dec, SchedOp.dec] ∧
      (∃ s0 logs0 s1 st logs r,
        schedRun initState [SchedOp.inc, SchedOp.reg, SchedOp.inc] = some (s0, logs0) ∧
        postponeCall 5 s0 = some s1 ∧
        schedRun s1 [SchedOp.dec, SchedOp.dec] = some (st, logs) ∧
        s1.postponedCalls.head? = some (r, 5) ∧
        (∀ n, (logs.getD n []).count 5 =
          if firesFirst s1.eventNestingLevel [SchedOp.dec, SchedOp.dec] r n then 1
          else 0) ∧
        ((r, 5) ∈ st.postponedCalls ↔
          ¬ reachesLevel s1.eventNestingLevel [SchedOp.dec, SchedOp.dec] r) ∧
        (∀ fullSt fullLogs,
          schedRun initState ([SchedOp.inc, SchedOp.reg, SchedOp.inc] ++
            SchedOp.post 5 :: [SchedOp.dec, SchedOp.dec]) = some (fullSt, fullLogs) →
          ∀ n, List.Sublist (fullLogs.getD n [])
            ((postIds (([SchedOp.inc, SchedOp.reg, SchedOp.inc] ++
              SchedOp.post 5 :: [SchedOp.dec, SchedOp.dec]).take n)).reverse))) :=
  ⟨by decide, by decide, by decide,
    postponed_calls_fire_once_at_first_unwind [SchedOp.inc, SchedOp.reg, SchedOp.inc]
      [SchedOp.dec, SchedOp.dec] 5 (by decide) (by decide) (by decide)⟩

/-- C8: a postponed call recorded at level `r` in a contract-respecting
trace whose continuation contains no decrement resulting in level `r`
is never invoked, stays queued to the end, and the whole continuation
runs without error. -/
theorem orphaned_postponed_call_never_fires (xs ys : List SchedOp) (c : Nat)
    (hpre : preSafeFrom initState (xs ++ SchedOp.post c :: ys) = true)
    (hxs : c ∉ postIds xs) (hys : c ∉ postIds ys) :
    ∃ s0 logs0 s1 st logs r,
      schedRun initState xs = some (s0, logs0) ∧
      postponeCall c s0 = some s1 ∧
      schedRun s1 ys = some (st, logs) ∧
      s1.postponedCalls.head? = some (r, c) ∧
      (¬ reachesLevel s1.eventNestingLevel ys r →
        (r, c) ∈ st.postponedCalls ∧ ∀ b ∈ logs, c ∉ b) := by
  rcases schedRun_total initState_inv hpre with ⟨stF, logsF, hrunF⟩
  rcases schedRun_append_some.mp hrunF with ⟨s0, logs0, logs2, hrun0, hrun2, -⟩
  have hInv0 : Inv s0 := schedRun_inv initState_inv hrun0
  rcases schedRun_cons_some.mp hrun2 with ⟨s1, fired, logs1, hstep, hrun1, -⟩
  rw [schedStep] at hstep
  cases hpc : postponeCall c s0 with
  | none =>
      rw [hpc] at hstep
      cases hstep
  | some s2 =>
      rw [hpc] at hstep
      cases hstep
      obtain ⟨hInv1, he1, r, hrle, hq1⟩ := postponeCall_some hInv0 hpc
      have hnotin : c ∉ s0.postponedCalls.map Prod.snd :=
        (not_posted_not_fired xs initState_inv hrun0 (by simp [initState]) hxs).2
      have hmem1 : (r, c) ∈ s1.postponedCalls := by
        rw [hq1]
        exact List.mem_cons_self _ _
      have hcount1 : (s1.postponedCalls.map Prod.snd).count c = 1 := by
        rw [hq1, List.map_cons, List.count_cons_self, List.count_eq_zero.mpr hnotin]
      obtain ⟨hcnt, hiff⟩ := pending_fire_spec ys hInv1 hmem1 hcount1 hys hrun1
      refine ⟨s0, logs0, s1, stF, logs1, r, hrun0, hpc, hrun1, by rw [hq1]; rfl, ?_⟩
      intro hnr
      refine ⟨hiff.mpr hnr, ?_⟩
      intro b hb hcb
      rcases List.mem_iff_get?.mp hb with ⟨n, hn⟩
      have hbd : logs1.getD n [] = b := getD_of_get? hn []
      have hcount0 := hcnt n
      rw [hbd] at hcount0
      by_cases hf : firesFirst s1.eventNestingLevel ys r n
      · exact hnr (firesFirst_reaches hf)
      · rw [if_neg hf] at hcount0
        have : 0 < b.count c := List.count_pos_iff.mpr hcb
        omega

/-- Witness for C8: postpone `7` at level 0 from event level 1, then
continue upward and unwind only to level 1 — level 0 is never
revisited. -/
theorem orphaned_postponed_call_never_fires_witness :
    preSafeFrom initState
        ([SchedOp.inc] ++ SchedOp.post 7 :: [SchedOp.inc, SchedOp.dec]) = true ∧
      7 ∉ postIds [SchedOp.inc] ∧ 7 ∉ postIds [SchedOp.inc, SchedOp.dec] ∧
      (∃ s0 logs0 s1 st logs r,
        schedRun initState [SchedOp.inc] = some (s0, logs0) ∧
        postponeCall 7 s0 = some s1 ∧
        schedRun s1 [SchedOp.inc, SchedOp.dec] = some (st, logs) ∧
        s1.postponedCalls.head? = some (r, 7) ∧
        (¬ reachesLevel s1.eventNestingLevel [SchedOp.inc, SchedOp.dec] r →
          (r, 7) ∈ st.postponedCalls ∧ ∀ b ∈ logs, 7 ∉ b)) :=
  ⟨by decide, by decide, by decide,
    orphaned_postponed_call_never_fires [SchedOp.inc] [SchedOp.inc, SchedOp.dec] 7
      (by decide) (by decide) (by decide)⟩

end Sandbox
